import Mathlib

/-!
Verification of the price-snapshot store and drop-detector of the
amazon-price-drop-alert repository, as a shallow embedding in Lean.

Conventions used throughout:
* Python dictionaries are modelled as association lists (`List (String × _)`)
  with `List.lookup`; the dictionary key-uniqueness invariant appears as a
  `Nodup` hypothesis where a statement needs it.
* Price strings are modelled by their float-parsed numeric value, as a
  rational number: every comparison and every stored price in the source
  goes through `float(...)` on the string, so `ℚ` stands for the parsed
  value (float rounding is not modelled).
* External collaborators (S3 object listing, S3 file contents, the HTTP
  scrape) are oracles passed as explicit function arguments.
* CSV serialisation is modelled at the record level: a registry file is a
  `List RegistryRow`, a snapshot file a list of rows, exactly the dict rows
  that `csv.DictReader`/`csv.DictWriter` exchange.
-/

/-! ## Character and list utilities shared by the embedding -/

/-- Python `str.replace(a, b)` for single-character arguments: replace every
occurrence of `a` by `b`. -/
def replaceChar (a b : Char) (l : List Char) : List Char :=
  l.map fun c => if c = a then b else c

/-- Python `str.split(sep)` for a single-character separator: split on every
occurrence, keeping empty parts (the result is always nonempty). -/
def splitOnChar (sep : Char) : List Char → List (List Char)
  | [] => [[]]
  | c :: rest =>
    let r := splitOnChar sep rest
    if c = sep then [] :: r else (c :: r.headD []) :: r.tail

theorem splitOnChar_ne_nil (sep : Char) (l : List Char) : splitOnChar sep l ≠ [] := by
  cases l with
  | nil => simp [splitOnChar]
  | cons c rest => by_cases hc : c = sep <;> simp [splitOnChar, hc]

theorem splitOnChar_cons_of_ne (sep c : Char) (rest : List Char) (hc : c ≠ sep) :
    splitOnChar sep (c :: rest) =
      (c :: (splitOnChar sep rest).headD []) :: (splitOnChar sep rest).tail := by
  simp [splitOnChar, hc]

theorem splitOnChar_sep_free (sep : Char) (l : List Char) (h : sep ∉ l) :
    splitOnChar sep l = [l] := by
  induction l with
  | nil => rfl
  | cons c rest ih =>
    simp only [List.mem_cons, not_or] at h
    rw [splitOnChar_cons_of_ne sep c rest (fun hc => h.1 hc.symm), ih h.2]
    rfl

theorem splitOnChar_append_sep (sep : Char) (l1 l2 : List Char) (h : sep ∉ l1) :
    splitOnChar sep (l1 ++ sep :: l2) = l1 :: splitOnChar sep l2 := by
  induction l1 with
  | nil => simp [splitOnChar]
  | cons c rest ih =>
    simp only [List.mem_cons, not_or] at h
    rw [List.cons_append,
      splitOnChar_cons_of_ne sep c (rest ++ sep :: l2) (fun hc => h.1 hc.symm),
      ih h.2]
    rfl

theorem mem_splitOnChar_sep_free (sep : Char) (l : List Char) :
    ∀ s ∈ splitOnChar sep l, sep ∉ s := by
  induction l with
  | nil => simp [splitOnChar]
  | cons c rest ih =>
    intro s hs
    rcases hr : splitOnChar sep rest with _ | ⟨h', t⟩
    · exact absurd hr (splitOnChar_ne_nil sep rest)
    by_cases hc : c = sep
    · rw [show splitOnChar sep (c :: rest) = [] :: splitOnChar sep rest by
        simp [splitOnChar, hc], hr] at hs
      rcases List.mem_cons.mp hs with h1 | h1
      · simp [h1]
      · exact ih s (hr ▸ h1)
    · rw [splitOnChar_cons_of_ne sep c rest hc, hr] at hs
      rcases List.mem_cons.mp hs with h1 | h1
      · subst h1
        intro hmem
        rcases List.mem_cons.mp hmem with h2 | h2
        · exact hc h2.symm
        · exact ih h' (hr ▸ List.mem_cons_self _ _) h2
      · exact ih s (hr ▸ List.mem_cons_of_mem _ h1)

theorem mem_of_mem_splitOnChar (sep : Char) (l : List Char) :
    ∀ s ∈ splitOnChar sep l, ∀ c ∈ s, c ∈ l := by
  induction l with
  | nil =>
    intro s hs c hc
    simp [splitOnChar] at hs
    subst hs
    simp at hc
  | cons x rest ih =>
    intro s hs c hc
    rcases hr : splitOnChar sep rest with _ | ⟨h', t⟩
    · exact absurd hr (splitOnChar_ne_nil sep rest)
    by_cases hx : x = sep
    · rw [show splitOnChar sep (x :: rest) = [] :: splitOnChar sep rest by
        simp [splitOnChar, hx], hr] at hs
      rcases List.mem_cons.mp hs with h1 | h1
      · subst h1; simp at hc
      · exact List.mem_cons_of_mem _ (ih s (hr ▸ h1) c hc)
    · rw [splitOnChar_cons_of_ne sep x rest hx, hr] at hs
      rcases List.mem_cons.mp hs with h1 | h1
      · subst h1
        rcases List.mem_cons.mp hc with h2 | h2
        · simp [h2]
        · exact List.mem_cons_of_mem _
            (ih h' (hr ▸ List.mem_cons_self _ _) c h2)
      · exact List.mem_cons_of_mem _ (ih s (hr ▸ List.mem_cons_of_mem _ h1) c hc)

theorem takeWhile_eq_self_of_all {p : Char → Bool} {l : List Char}
    (h : ∀ c ∈ l, p c = true) : l.takeWhile p = l := by
  induction l with
  | nil => rfl
  | cons c rest ih =>
    rw [List.takeWhile_cons, h c (List.mem_cons_self _ _)]
    simp [ih fun x hx => h x (List.mem_cons_of_mem _ hx)]

/-! ## Model of src/app/amazon_url_handler.py

The URL-processing code calls `urllib.parse.urlparse(url).path` and then works
with plain string operations and the regular expression
`/dp/([A-Z0-9]{10})|/gp/product/([A-Z0-9]{10})`.  The model below implements
the path extraction of `urlparse` (scheme, `//netloc`, query, fragment and
the params split on the last path segment) and the regex search directly:
`re.search` scans start positions left to right and tries the two alternation
branches in order at each position. -/

/-- Characters allowed in a URL scheme after the leading letter
(`urllib.parse`: alphanumerics, `+`, `-` and `.`). -/
def isSchemeChar (c : Char) : Bool :=
  c.isAlphanum || c = '+' || c = '-' || c = '.'

/-- Scan the characters after the leading (alphabetic) character of a
candidate scheme; return the part after `scheme:` when every character up to
the first `:` is a valid scheme character, and `none` otherwise. -/
def schemeTail : List Char → Option (List Char)
  | [] => none
  | c :: rest => if c = ':' then some rest
                 else if isSchemeChar c then schemeTail rest else none

/-- Strip a leading `scheme:` from the URL when present
(`urlparse` recognises a scheme only when its first character is a letter). -/
def afterScheme (l : List Char) : List Char :=
  match l with
  | [] => []
  | c :: rest => if c.isAlpha then (schemeTail rest).getD l else l

/-- Strip a leading `//netloc`: the netloc extends to the first `/`, `?` or
`#`, which is left in place. -/
def afterNetloc (l : List Char) : List Char :=
  match l with
  | '/' :: '/' :: rest => rest.dropWhile fun c => !(c = '/' || c = '?' || c = '#')
  | _ => l

/-- Cut the URL at the first `?` or `#` (query and fragment). -/
def takeUntilQueryFrag (l : List Char) : List Char :=
  l.takeWhile fun c => !(c = '?' || c = '#')

/-- The params split of `urlparse`: when the path contains a `/`, a `;` in the
last segment starts the params, which `ParseResult.path` excludes; with no
`/`, the first `;` anywhere starts them. -/
def stripParams (p : List Char) : List Char :=
  if p.contains '/' then
    let segs := splitOnChar '/' p
    List.intercalate ['/']
      (segs.dropLast ++ [((segs.getLast?).getD []).takeWhile (· ≠ ';')])
  else p.takeWhile (· ≠ ';')

/-- Model of `urllib.parse.urlparse(url).path`. -/
def urlparsePath (l : List Char) : List Char :=
  stripParams (takeUntilQueryFrag (afterNetloc (afterScheme l)))

/-- The regex character class `[A-Z0-9]`. -/
def isAsinChar (c : Char) : Bool :=
  ('A' ≤ c && c ≤ 'Z') || ('0' ≤ c && c ≤ '9')

/-- Try to match `/dp/([A-Z0-9]{10})` at the head of the list, returning the
captured ASIN. -/
def matchDpAt (l : List Char) : Option (List Char) :=
  if l.take 4 = ['/', 'd', 'p', '/'] ∧ ((l.drop 4).take 10).length = 10 ∧
      ((l.drop 4).take 10).all isAsinChar
  then some ((l.drop 4).take 10) else none

/-- Try to match `/gp/product/([A-Z0-9]{10})` at the head of the list. -/
def matchGpAt (l : List Char) : Option (List Char) :=
  if l.take 12 = ['/', 'g', 'p', '/', 'p', 'r', 'o', 'd', 'u', 'c', 't', '/'] ∧
      ((l.drop 12).take 10).length = 10 ∧ ((l.drop 12).take 10).all isAsinChar
  then some ((l.drop 12).take 10) else none

/-- Model of `re.search(r"/dp/([A-Z0-9]{10})|/gp/product/([A-Z0-9]{10})", path)`
followed by `match.group(1) or match.group(2)`: scan start positions left to
right, trying the `/dp/` branch before the `/gp/product/` branch at each. -/
def searchAsin : List Char → Option (List Char)
  | [] => none
  | c :: rest =>
    match matchDpAt (c :: rest) with
    | some a => some a
    | none =>
      match matchGpAt (c :: rest) with
      | some a => some a
      | none => searchAsin rest

/-- Model of `AmazonURLProcessor._extract_product_name`: split the parsed path
on `/`, look up the index of the first `dp` segment and take the segment
before it with `-` replaced by a space.  When `dp` is the first segment,
Python's `path_parts[dp_index - 1]` is `path_parts[-1]`, the LAST segment
(negative indexing); an absent `dp` segment (`ValueError`) yields the
fallback name. -/
def extract_product_name (url : List Char) : List Char :=
  let parts := splitOnChar '/' (urlparsePath url)
  match parts.findIdx? (· = ['d', 'p']) with
  | none => "Amazon Product".data
  | some i =>
    if i = 0 then replaceChar '-' ' ' ((parts.getLast?).getD [])
    else replaceChar '-' ' ' ((parts[i - 1]?).getD [])

/-- Model of `AmazonURLProcessor.get_simplified_amazon_url` on character
lists. -/
def get_simplified_amazon_url_chars (url : List Char) : List Char :=
  match searchAsin (urlparsePath url) with
  | some asin =>
    "https://www.amazon.com/".data ++
      replaceChar ' ' '-' (extract_product_name url) ++ "/dp/".data ++ asin
  | none => "Invalid Amazon product URL: ".data ++ url

/-- Model of `AmazonURLProcessor.get_simplified_amazon_url`. -/
def get_simplified_amazon_url (url : String) : String :=
  String.mk (get_simplified_amazon_url_chars url.data)

example : get_simplified_amazon_url
    "https://www.amazon.com/Apple-AirPods-Pro-2nd-Generation/dp/B0BDHWDR12?th=1" =
    "https://www.amazon.com/Apple-AirPods-Pro-2nd-Generation/dp/B0BDHWDR12" := by
  decide

example : get_simplified_amazon_url "https://www.example.com/nothing" =
    "Invalid Amazon product URL: https://www.example.com/nothing" := by
  decide

example : get_simplified_amazon_url "https://www.amazon.com/gp/product/B0BDHWDR12" =
    "https://www.amazon.com/Amazon-Product/dp/B0BDHWDR12" := by
  decide

/-! ## Model of SHA-256 (FIPS 180-4), as called through `hashlib.sha256`

The identity hasher of src/app/s3_data_handler.py is
`hashlib.sha256(f"{product_name}{url}".encode()).hexdigest()[:ID_SIZE]`.
The functions below implement SHA-256 over the UTF-8 bytes of the input,
with 32-bit words represented as natural numbers reduced modulo `2^32`. -/

/-- UTF-8 encoding of one character (Python `str.encode()` default). -/
def utf8EncodeChar (c : Char) : List Nat :=
  let n := c.toNat
  if n < 128 then [n]
  else if n < 2048 then [192 ||| (n >>> 6), 128 ||| (n &&& 63)]
  else if n < 65536 then
    [224 ||| (n >>> 12), 128 ||| ((n >>> 6) &&& 63), 128 ||| (n &&& 63)]
  else
    [240 ||| (n >>> 18), 128 ||| ((n >>> 12) &&& 63),
     128 ||| ((n >>> 6) &&& 63), 128 ||| (n &&& 63)]

def utf8Bytes (s : String) : List Nat :=
  s.data.flatMap utf8EncodeChar

def rotr32 (n x : Nat) : Nat :=
  ((x >>> n) ||| (x <<< (32 - n))) % 4294967296

structure Hash8 where
  a : Nat
  b : Nat
  c : Nat
  d : Nat
  e : Nat
  f : Nat
  g : Nat
  h : Nat

/-- The SHA-256 initial hash state of FIPS 180-4 (decimal form). -/
def sha256InitHash : Hash8 :=
  ⟨1779033703, 3144134277, 1013904242, 2773480762,
   1359893119, 2600822924, 528734635, 1541459225⟩

/-- The 64 SHA-256 round constants of FIPS 180-4 (decimal form). -/
def sha256K : List Nat :=
  [1116352408, 1899447441, 3049323471, 3921009573, 961987163,
   1508970993, 2453635748, 2870763221, 3624381080, 310598401,
   607225278, 1426881987, 1925078388, 2162078206, 2614888103,
   3248222580, 3835390401, 4022224774, 264347078, 604807628,
   770255983, 1249150122, 1555081692, 1996064986, 2554220882,
   2821834349, 2952996808, 3210313671, 3336571891, 3584528711,
   113926993, 338241895, 666307205, 773529912, 1294757372,
   1396182291, 1695183700, 1986661051, 2177026350, 2456956037,
   2730485921, 2820302411, 3259730800, 3345764771, 3516065817,
   3600352804, 4094571909, 275423344, 430227734, 506948616,
   659060556, 883997877, 958139571, 1322822218, 1537002063,
   1747873779, 1955562222, 2024104815, 2227730452, 2361852424,
   2428436474, 2756734187, 3204031479, 3329325298]

/-- Big-endian 8-byte encoding of the bit length. -/
def lengthBytes64 (n : Nat) : List Nat :=
  [(n >>> 56) % 256, (n >>> 48) % 256, (n >>> 40) % 256, (n >>> 32) % 256,
   (n >>> 24) % 256, (n >>> 16) % 256, (n >>> 8) % 256, n % 256]

/-- SHA-256 padding: append `0x80`, zeros to 56 mod 64, then the bit length. -/
def sha256Pad (msg : List Nat) : List Nat :=
  msg ++ 128 :: List.replicate ((119 - msg.length % 64) % 64) 0 ++
    lengthBytes64 (8 * msg.length)

def bytesToWords : List Nat → List Nat
  | a :: b :: c :: d :: rest => (((a * 256 + b) * 256 + c) * 256 + d) :: bytesToWords rest
  | _ => []

def chunks64Aux : Nat → List Nat → List (List Nat)
  | 0, _ => []
  | _, [] => []
  | fuel + 1, a :: rest => (a :: rest).take 64 :: chunks64Aux fuel ((a :: rest).drop 64)

/-- Split a byte list into 64-byte chunks (structural recursion on a fuel
bound so that the definition reduces in the kernel). -/
def chunks64 (l : List Nat) : List (List Nat) :=
  chunks64Aux l.length l

def smallSigma0 (x : Nat) : Nat := (rotr32 7 x) ^^^ (rotr32 18 x) ^^^ (x >>> 3)

def smallSigma1 (x : Nat) : Nat := (rotr32 17 x) ^^^ (rotr32 19 x) ^^^ (x >>> 10)

def bigSigma0 (x : Nat) : Nat := (rotr32 2 x) ^^^ (rotr32 13 x) ^^^ (rotr32 22 x)

def bigSigma1 (x : Nat) : Nat := (rotr32 6 x) ^^^ (rotr32 11 x) ^^^ (rotr32 25 x)

def chFn (e f g : Nat) : Nat := (e &&& f) ^^^ ((e ^^^ 4294967295) &&& g)

def majFn (a b c : Nat) : Nat := (a &&& b) ^^^ (a &&& c) ^^^ (b &&& c)

/-- Extend the message schedule by one word. -/
def scheduleStep (w : List Nat) : List Nat :=
  let n := w.length
  w ++ [(smallSigma1 (w.getD (n - 2) 0) + w.getD (n - 7) 0 +
         smallSigma0 (w.getD (n - 15) 0) + w.getD (n - 16) 0) % 4294967296]

def compressRound (s : Hash8) (kw : Nat × Nat) : Hash8 :=
  let t1 := (s.h + bigSigma1 s.e + chFn s.e s.f s.g + kw.1 + kw.2) % 4294967296
  let t2 := (bigSigma0 s.a + majFn s.a s.b s.c) % 4294967296
  ⟨(t1 + t2) % 4294967296, s.a, s.b, s.c, (s.d + t1) % 4294967296, s.e, s.f, s.g⟩

def processChunk (s : Hash8) (chunk : List Nat) : Hash8 :=
  let w := scheduleStep^[48] (bytesToWords chunk)
  let t := (sha256K.zip w).foldl compressRound s
  ⟨(s.a + t.a) % 4294967296, (s.b + t.b) % 4294967296, (s.c + t.c) % 4294967296,
   (s.d + t.d) % 4294967296, (s.e + t.e) % 4294967296, (s.f + t.f) % 4294967296,
   (s.g + t.g) % 4294967296, (s.h + t.h) % 4294967296⟩

/-- Big-endian bytes of one 32-bit word. -/
def wordBytes (x : Nat) : List Nat :=
  [(x >>> 24) % 256, (x >>> 16) % 256, (x >>> 8) % 256, x % 256]

/-- SHA-256 digest (32 bytes) of a byte string. -/
def sha256Bytes (msg : List Nat) : List Nat :=
  let s := (chunks64 (sha256Pad msg)).foldl processChunk sha256InitHash
  wordBytes s.a ++ wordBytes s.b ++ wordBytes s.c ++ wordBytes s.d ++
    wordBytes s.e ++ wordBytes s.f ++ wordBytes s.g ++ wordBytes s.h

def hexDigitChar (n : Nat) : Char :=
  if n < 10 then Char.ofNat (48 + n) else Char.ofNat (87 + n)

def byteToHex (b : Nat) : List Char :=
  [hexDigitChar (b / 16 % 16), hexDigitChar (b % 16)]

/-- Python `hashlib.sha256(s.encode()).hexdigest()` (lowercase hex). -/
def sha256_hexdigest (s : String) : String :=
  String.mk ((utf8Bytes s |> sha256Bytes).flatMap byteToHex)

/-- The `ID_SIZE` constant of src/app/s3_data_handler.py. -/
def ID_SIZE : Nat := 16

/-- Model of `S3DataHandler.hash_product_id`: the first `ID_SIZE` hexadecimal
characters of the SHA-256 digest of the concatenation of name and URL. -/
def hash_product_id (product_name url : String) : String :=
  String.mk ((sha256_hexdigest (product_name ++ url)).data.take ID_SIZE)

/-- Lowercase hexadecimal digits, the alphabet of `hexdigest`. -/
def isHexChar (c : Char) : Bool :=
  c.isDigit || ('a' ≤ c && c ≤ 'f')

theorem isHexChar_hexDigitChar : ∀ k : Fin 16, isHexChar (hexDigitChar k.val) = true := by
  decide

theorem mem_byteToHex_isHexChar (b : Nat) : ∀ c ∈ byteToHex b, isHexChar c = true := by
  intro c hc
  rcases List.mem_cons.mp hc with h | h
  · exact h ▸ isHexChar_hexDigitChar ⟨b / 16 % 16, Nat.mod_lt _ (by norm_num)⟩
  · rcases List.mem_cons.mp h with h1 | h1
    · exact h1 ▸ isHexChar_hexDigitChar ⟨b % 16, Nat.mod_lt _ (by norm_num)⟩
    · simp at h1

theorem length_flatMap_byteToHex (l : List Nat) :
    (l.flatMap byteToHex).length = 2 * l.length := by
  induction l with
  | nil => rfl
  | cons b rest ih =>
    simp only [List.flatMap_cons, List.length_append, ih, byteToHex,
      List.length_cons, List.length_nil, List.length_cons]
    ring

theorem length_sha256Bytes (msg : List Nat) : (sha256Bytes msg).length = 32 := by
  simp [sha256Bytes, wordBytes]

theorem length_sha256_hexdigest (s : String) : (sha256_hexdigest s).length = 64 := by
  show (sha256_hexdigest s).data.length = 64
  simp only [sha256_hexdigest, length_flatMap_byteToHex, length_sha256Bytes]

theorem data_length_sha256_hexdigest (s : String) :
    (sha256_hexdigest s).data.length = 64 := by
  simp only [sha256_hexdigest, length_flatMap_byteToHex, length_sha256Bytes]

/-- C7: the identity hasher is the pure function taking `(name, url)` to the
first `ID_SIZE = 16` hexadecimal characters of the SHA-256 hex digest of the
concatenation of name and url; on every pair of string inputs it yields a
16-character hexadecimal id and raises no error.  Determinism across calls is
intrinsic: `hash_product_id` is a total pure function of its two arguments. -/
theorem hash_product_id_sha256_spec (product_name url : String) :
    hash_product_id product_name url =
      String.mk ((sha256_hexdigest (product_name ++ url)).data.take ID_SIZE) ∧
    (hash_product_id product_name url).length = 16 ∧
    (hash_product_id product_name url).data.all isHexChar = true := by
  refine ⟨rfl, ?_, ?_⟩
  · show ((sha256_hexdigest (product_name ++ url)).data.take ID_SIZE).length = 16
    rw [List.length_take, data_length_sha256_hexdigest]
    rfl
  · rw [List.all_eq_true]
    intro c hc
    have hc2 : c ∈ (sha256_hexdigest (product_name ++ url)).data :=
      List.take_subset _ _ hc
    simp only [sha256_hexdigest, List.mem_flatMap] at hc2
    obtain ⟨b, _, hb⟩ := hc2
    exact mem_byteToHex_isHexChar b c hb

/-! ## Model of the product registry (src/app/s3_data_handler.py)

A registry file is its list of CSV rows; `csv.DictReader` hands each row to
the code as a mapping with the four header fields.  The `archived` column is
the empty string for an active product and an `YYYY-MM-DD` date once the
product is archived.  The in-process `product_cache` of the singleton is an
explicit argument where a modelled method consults it. -/

structure RegistryRow where
  product_name : String
  product_url : String
  product_id : String
  archived : String
deriving DecidableEq, Inhabited

/-- Model of the `ProductDTO` dataclass.  `archived` is `none` when the CSV
row lacks the column (`row.get(ARCHIVED_HEADER, None)`) and `some s`
otherwise. -/
structure ProductDTO where
  product_name : String
  url : String
  product_id : String
  price : Option String := none
  archived : Option String := none
deriving DecidableEq, Inhabited

/-- Python truthiness of an optional string: `None` and `""` are falsy. -/
def truthyOpt : Option String → Bool
  | none => false
  | some s => s ≠ ""

/-- Model of `S3DataHandler._filter_active_products`. -/
def filter_active_products (products : List ProductDTO) : List ProductDTO :=
  products.filter fun p => !truthyOpt p.archived

/-- The `ProductDTO` built from a registry row by the reading loops of
`list_registered_products` and `get_products_with_ids`. -/
def rowToDTO (row : RegistryRow) : ProductDTO :=
  { product_name := row.product_name
    url := row.product_url
    product_id := row.product_id
    price := none
    archived := some row.archived }

/-- Model of `S3DataHandler.list_registered_products`: read every row, then
return only the active products. -/
def list_registered_products (registry : List RegistryRow) : List ProductDTO :=
  filter_active_products (registry.map rowToDTO)

/-- Model of `S3DataHandler._get_product_from_cache`: an entry matches only
when its id agrees and it is not archived. -/
def get_product_from_cache (cache : List ProductDTO) (product_id : String) :
    Option ProductDTO :=
  cache.find? fun p => p.product_id == product_id && !truthyOpt p.archived

/-- The registry scan of `get_products_with_ids`: walk the rows in file
order; a row whose id is still requested is recorded and its id removed from
the requested set, so the first row with a given id wins.  Returns the
products found (in scan order) and the ids that remained unmatched. -/
def scanRegistry : List RegistryRow → List String →
    List (String × ProductDTO) → List (String × ProductDTO) × List String
  | [], remaining, acc => (acc, remaining)
  | row :: rest, remaining, acc =>
    if row.product_id ∈ remaining then
      scanRegistry rest (remaining.erase row.product_id)
        (acc ++ [(row.product_id, rowToDTO row)])
    else scanRegistry rest remaining acc

inductive LookupResult
  | keyError (missing : List String)
  | ok (products : List (String × ProductDTO))
deriving DecidableEq

/-- Model of `S3DataHandler.get_products_with_ids`.  The requested list is
deduplicated (`set(product_ids)`; the set's iteration order is immaterial to
every statement below), the cache is consulted first, the registry rows are
scanned for the rest, a `KeyError` is raised when ids remain unmatched, and
finally archived products are filtered out of the returned mapping. -/
def get_products_with_ids (registry : List RegistryRow) (cache : List ProductDTO)
    (product_ids : List String) : LookupResult :=
  let uids := product_ids.dedup
  let cachedPairs := uids.filterMap fun pid =>
    (get_product_from_cache cache pid).map fun p => (pid, p)
  let remaining0 := uids.filter fun pid => (get_product_from_cache cache pid).isNone
  let scanned := scanRegistry registry remaining0 []
  if scanned.2 ≠ [] then .keyError scanned.2
  else .ok ((cachedPairs ++ scanned.1).filter fun pr => !truthyOpt pr.2.archived)

/-- Python `str.lower()` (the registry holds ASCII names, for which
`Char.toLower` agrees with Python). -/
def lowerStr (s : String) : String :=
  String.mk (s.data.map Char.toLower)

inductive RegisterResult
  | duplicate
  | ok (newRegistry : List RegistryRow)
deriving DecidableEq

/-- Model of `S3DataHandler.register_new_product`.  The URL is first
simplified; the model takes the interactive confirmation as answered with
"Y" (the cancel path is a pure no-op).  A row with the same name
(case-insensitively) or the same simplified URL — archived or not — makes the
call return without touching the registry; otherwise the id is hashed and a
row with an empty `archived` field is appended.  (The Python function always
returns `None`; the model exposes the new registry state instead.) -/
def register_new_product (registry : List RegistryRow) (product_name url : String) :
    RegisterResult :=
  let simplified_url := get_simplified_amazon_url url
  if registry.any fun row =>
      lowerStr row.product_name == lowerStr product_name ||
        row.product_url == simplified_url
  then .duplicate
  else
    .ok (registry ++
      [⟨product_name, simplified_url, hash_product_id product_name simplified_url, ""⟩])

/-- One row update of `archive_product`: the matching row's `archived` field
is set to today's date. -/
def archive_row (product_id today : String) (row : RegistryRow) : RegistryRow :=
  if row.product_id = product_id then { row with archived := today } else row

/-- Model of `S3DataHandler.archive_product`: when some row carries the id,
every such row gets `archived := today` and the call returns `True` with the
rewritten registry; otherwise it returns `False` before writing anything, so
the registry is unchanged.  (On success the Python code also clears the
in-process cache.) -/
def archive_product (registry : List RegistryRow) (product_id today : String) :
    Bool × List RegistryRow :=
  if registry.any fun row => row.product_id == product_id then
    (true, registry.map (archive_row product_id today))
  else (false, registry)

/-! ## Lemmas about the registry operations -/

theorem scanRegistry_acc (rows : List RegistryRow) :
    ∀ rem acc, scanRegistry rows rem acc =
      (acc ++ (scanRegistry rows rem []).1, (scanRegistry rows rem []).2) := by
  induction rows with
  | nil => intro rem acc; simp [scanRegistry]
  | cons row rest ih =>
    intro rem acc
    by_cases hmem : row.product_id ∈ rem
    · simp only [scanRegistry, if_pos hmem]
      rw [ih (rem.erase row.product_id) (acc ++ [(row.product_id, rowToDTO row)]),
        ih (rem.erase row.product_id) ([] ++ [(row.product_id, rowToDTO row)])]
      simp
    · simp only [scanRegistry, if_neg hmem]
      exact ih rem acc

theorem scanRegistry_missing_nil_iff (rows : List RegistryRow) :
    ∀ rem : List String, rem.Nodup →
      ((scanRegistry rows rem []).2 = [] ↔
        ∀ pid ∈ rem, ∃ row ∈ rows, row.product_id = pid) := by
  induction rows with
  | nil =>
    intro rem _
    simp only [scanRegistry]
    constructor
    · intro h pid hpid; rw [h] at hpid; simp at hpid
    · intro h
      rcases rem with _ | ⟨pid, rem'⟩
      · rfl
      · exact absurd (h pid (List.mem_cons_self _ _)) (by simp)
  | cons row rest ih =>
    intro rem hnd
    by_cases hmem : row.product_id ∈ rem
    · simp only [scanRegistry, if_pos hmem]
      rw [scanRegistry_acc, ih (rem.erase row.product_id) (hnd.erase _)]
      rw [hnd.erase_eq_filter]
      constructor
      · intro h pid hpid
        by_cases hid : pid = row.product_id
        · exact ⟨row, List.mem_cons_self _ _, hid.symm⟩
        · obtain ⟨r, hr, hrid⟩ := h pid (by
            rw [List.mem_filter]
            exact ⟨hpid, by simp [hid]⟩)
          exact ⟨r, List.mem_cons_of_mem _ hr, hrid⟩
      · intro h pid hpid
        rw [List.mem_filter] at hpid
        obtain ⟨r, hr, hrid⟩ := h pid hpid.1
        rcases List.mem_cons.mp hr with h1 | h1
        · exfalso
          have hne : pid ≠ row.product_id := by simpa using hpid.2
          exact hne (by rw [← hrid, h1])
        · exact ⟨r, h1, hrid⟩
    · simp only [scanRegistry, if_neg hmem]
      rw [ih rem hnd]
      constructor
      · intro h pid hpid
        obtain ⟨r, hr, hrid⟩ := h pid hpid
        exact ⟨r, List.mem_cons_of_mem _ hr, hrid⟩
      · intro h pid hpid
        obtain ⟨r, hr, hrid⟩ := h pid hpid
        rcases List.mem_cons.mp hr with h1 | h1
        · exfalso
          apply hmem
          rw [show row.product_id = pid by rw [← hrid, h1]]
          exact hpid
        · exact ⟨r, h1, hrid⟩

theorem scanRegistry_found_mem (rows : List RegistryRow) :
    ∀ rem : List String, rem.Nodup → ∀ pid dto,
      ((pid, dto) ∈ (scanRegistry rows rem []).1 ↔
        pid ∈ rem ∧ ∃ row, rows.find? (fun r => r.product_id == pid) = some row ∧
          dto = rowToDTO row) := by
  induction rows with
  | nil =>
    intro rem _ pid dto
    simp [scanRegistry]
  | cons row rest ih =>
    intro rem hnd pid dto
    by_cases hmem : row.product_id ∈ rem
    · simp only [scanRegistry, if_pos hmem]
      rw [scanRegistry_acc]
      simp only [List.nil_append, List.singleton_append, List.mem_cons]
      by_cases hid : pid = row.product_id
      · subst hid
        rw [List.find?_cons_of_pos _ (by simp)]
        constructor
        · intro h
          rcases h with h | h
          · exact ⟨hmem, row, rfl, congrArg Prod.snd h⟩
          · exfalso
            have := (ih (rem.erase row.product_id) (hnd.erase _)
              row.product_id dto).mp h
            exact (List.Nodup.not_mem_erase hnd) this.1
        · rintro ⟨-, r, hr, hdto⟩
          left
          cases hr
          rw [hdto]
      · rw [List.find?_cons_of_neg _ (by simp [Ne.symm hid])]
        constructor
        · intro h
          rcases h with h | h
          · exact absurd (congrArg Prod.fst h) hid
          · have := (ih (rem.erase row.product_id) (hnd.erase _) pid dto).mp h
            exact ⟨(List.mem_erase_of_ne hid).mp this.1, this.2⟩
        · rintro ⟨hpid, r, hr, hdto⟩
          right
          exact (ih (rem.erase row.product_id) (hnd.erase _) pid dto).mpr
            ⟨(List.mem_erase_of_ne hid).mpr hpid, r, hr, hdto⟩
    · simp only [scanRegistry, if_neg hmem]
      by_cases hid : pid = row.product_id
      · subst hid
        rw [ih rem hnd]
        constructor
        · rintro ⟨hpid, -⟩
          exact absurd hpid hmem
        · rintro ⟨hpid, -⟩
          exact absurd hpid hmem
      · rw [ih rem hnd, List.find?_cons_of_neg _ (by simp [Ne.symm hid])]

theorem get_product_from_cache_empty (pid : String) :
    get_product_from_cache [] pid = none := rfl

theorem filterMap_const_none {α β : Type} (l : List α) :
    l.filterMap (fun _ => (none : Option β)) = [] := by
  induction l <;> simp [*]

/-- C4 (amended): with a fresh (empty) cache, `get_products_with_ids` fails
with a `KeyError` exactly when some requested id appears on no registry row
at all.  A requested id whose matching row is archived is NOT an error: it is
silently omitted from the returned mapping.  The returned mapping has an
entry for precisely those requested ids whose first matching row is
active. -/
theorem get_products_with_ids_amended (registry : List RegistryRow)
    (product_ids : List String) :
    ((∃ m, get_products_with_ids registry [] product_ids = .keyError m) ↔
      ∃ pid ∈ product_ids, ∀ row ∈ registry, row.product_id ≠ pid) ∧
    (∀ ps, get_products_with_ids registry [] product_ids = .ok ps →
      ∀ pid, ((∃ dto, (pid, dto) ∈ ps) ↔
        (pid ∈ product_ids ∧ ∃ row,
          registry.find? (fun r => r.product_id == pid) = some row ∧
          row.archived = ""))) := by
  have hnd : product_ids.dedup.Nodup := List.nodup_dedup _
  have hunfold : get_products_with_ids registry [] product_ids =
      if (scanRegistry registry product_ids.dedup []).2 = [] then
        .ok ((scanRegistry registry product_ids.dedup []).1.filter
          fun pr => !truthyOpt pr.2.archived)
      else .keyError (scanRegistry registry product_ids.dedup []).2 := by
    simp [get_products_with_ids, get_product_from_cache_empty, filterMap_const_none]
  constructor
  · rw [hunfold]
    by_cases hcond : (scanRegistry registry product_ids.dedup []).2 = []
    · rw [if_pos hcond]
      simp only [reduceCtorEq, exists_false, false_iff]
      have hall := (scanRegistry_missing_nil_iff registry product_ids.dedup hnd).mp hcond
      push_neg
      intro pid hpid
      obtain ⟨row, hrow, hid⟩ := hall pid (List.mem_dedup.mpr hpid)
      exact ⟨row, hrow, hid⟩
    · rw [if_neg hcond]
      simp only [LookupResult.keyError.injEq, exists_eq', true_iff]
      have h2 : ¬∀ pid ∈ product_ids.dedup, ∃ row ∈ registry, row.product_id = pid := by
        intro hx
        exact hcond ((scanRegistry_missing_nil_iff registry product_ids.dedup hnd).mpr hx)
      push_neg at h2
      obtain ⟨pid, hpid, hno⟩ := h2
      exact ⟨pid, List.mem_dedup.mp hpid, fun row hrow => hno row hrow⟩
  · intro ps hps pid
    rw [hunfold] at hps
    by_cases hcond : (scanRegistry registry product_ids.dedup []).2 = []
    · rw [if_pos hcond] at hps
      injection hps with hpseq
      subst hpseq
      constructor
      · rintro ⟨dto, hdto⟩
        rw [List.mem_filter] at hdto
        obtain ⟨hmem, hact⟩ := hdto
        obtain ⟨hpid, row, hrow, hdtoeq⟩ :=
          (scanRegistry_found_mem registry product_ids.dedup hnd pid dto).mp hmem
        refine ⟨List.mem_dedup.mp hpid, row, hrow, ?_⟩
        subst hdtoeq
        simpa [rowToDTO, truthyOpt] using hact
      · rintro ⟨hpid, row, hrow, harch⟩
        refine ⟨rowToDTO row, ?_⟩
        rw [List.mem_filter]
        refine ⟨(scanRegistry_found_mem registry product_ids.dedup hnd pid
          (rowToDTO row)).mpr ⟨List.mem_dedup.mpr hpid, row, hrow, rfl⟩, ?_⟩
        simp [rowToDTO, truthyOpt, harch]
    · rw [if_neg hcond] at hps
      exact absurd hps (by simp)

/-- C4 counterexample: the id `aa11` exists in the registry but only on an
archived row; the claim demands a not-found failure, yet the code returns an
ordinary (empty) mapping with no error. -/
theorem get_products_archived_counterexample :
    get_products_with_ids
      [⟨"Widget", "https://www.amazon.com/Widget/dp/B000000001", "aa11", "2024-01-01"⟩]
      [] ["aa11"] = .ok [] := by
  decide

/-- Witness for the amended C4 theorem at a concrete registry: a request for
an id on no registry row at all is exactly a `KeyError`. -/
theorem get_products_with_ids_amended_witness :
    ((∃ m, get_products_with_ids
        [⟨"Widget", "https://www.amazon.com/Widget/dp/B000000001", "aa11", ""⟩]
        [] ["zz99"] = .keyError m) ↔
      ∃ pid ∈ ["zz99"], ∀ row ∈
        [(⟨"Widget", "https://www.amazon.com/Widget/dp/B000000001", "aa11", ""⟩ : RegistryRow)],
          row.product_id ≠ pid) :=
  (get_products_with_ids_amended
    [⟨"Widget", "https://www.amazon.com/Widget/dp/B000000001", "aa11", ""⟩] ["zz99"]).1

/-- C3 (amended): `register_new_product` signals a duplicate and leaves the
registry untouched exactly when ANY existing row — archived rows included —
has the same name (compared case-insensitively) or the same simplified URL;
otherwise it computes the id with the identity hasher on the name and the
simplified URL and appends a single record whose `archived` field is
empty. -/
theorem register_duplicate_guard_amended (registry : List RegistryRow)
    (product_name url : String) :
    (register_new_product registry product_name url = .duplicate ↔
      ∃ row ∈ registry, lowerStr row.product_name = lowerStr product_name ∨
        row.product_url = get_simplified_amazon_url url) ∧
    (register_new_product registry product_name url ≠ .duplicate →
      register_new_product registry product_name url =
        .ok (registry ++ [⟨product_name, get_simplified_amazon_url url,
          hash_product_id product_name (get_simplified_amazon_url url), ""⟩])) := by
  constructor
  · unfold register_new_product
    by_cases hdup : registry.any fun row =>
        lowerStr row.product_name == lowerStr product_name ||
          row.product_url == get_simplified_amazon_url url
    · simp only [hdup, if_true, true_iff]
      rw [List.any_eq_true] at hdup
      obtain ⟨row, hrow, hcond⟩ := hdup
      rw [Bool.or_eq_true, beq_iff_eq, beq_iff_eq] at hcond
      exact ⟨row, hrow, hcond⟩
    · simp only [hdup, if_false, Bool.false_eq_true, reduceCtorEq, false_iff]
      rintro ⟨row, hrow, hcond⟩
      apply hdup
      rw [List.any_eq_true]
      refine ⟨row, hrow, ?_⟩
      rw [Bool.or_eq_true, beq_iff_eq, beq_iff_eq]
      exact hcond
  · intro hne
    unfold register_new_product at hne ⊢
    by_cases hdup : registry.any fun row =>
        lowerStr row.product_name == lowerStr product_name ||
          row.product_url == get_simplified_amazon_url url
    · simp only [hdup, if_true] at hne
      exact absurd rfl hne
    · simp only [hdup, Bool.false_eq_true, if_false]

/-- C3 counterexample: the only row carrying the name `Widget` is archived, so
no ACTIVE product shares the name or URL (`list_registered_products` is
empty); the claim then demands a successful registration, but the code
signals a duplicate and registers nothing. -/
theorem register_duplicate_guard_counterexample :
    list_registered_products
        [⟨"Widget", "https://www.amazon.com/Widget/dp/B000000001", "aa11",
          "2024-01-01"⟩] = [] ∧
      register_new_product
        [⟨"Widget", "https://www.amazon.com/Widget/dp/B000000001", "aa11",
          "2024-01-01"⟩]
        "Widget" "https://www.amazon.com/Widget/dp/B000000001" = .duplicate := by
  constructor
  · decide
  · decide

/-- Witness for the amended C3 theorem: on an empty registry nothing is a
duplicate, and the record with the hashed id and empty `archived` field is
appended. -/
theorem register_duplicate_guard_amended_witness :
    register_new_product [] "Widget" "https://www.amazon.com/Widget-Name/dp/B000000001" =
      .ok ([] ++ [⟨"Widget",
        get_simplified_amazon_url "https://www.amazon.com/Widget-Name/dp/B000000001",
        hash_product_id "Widget"
          (get_simplified_amazon_url "https://www.amazon.com/Widget-Name/dp/B000000001"),
        ""⟩]) :=
  (register_duplicate_guard_amended [] "Widget"
    "https://www.amazon.com/Widget-Name/dp/B000000001").2
    (fun h => by
      have := (register_duplicate_guard_amended [] "Widget"
        "https://www.amazon.com/Widget-Name/dp/B000000001").1.mp h
      simp at this)

theorem archive_row_id (product_id today : String) (row : RegistryRow) :
    (archive_row product_id today row).product_id = row.product_id := by
  unfold archive_row
  by_cases h : row.product_id = product_id <;> simp [h]

theorem archive_row_idem (product_id today : String) (row : RegistryRow) :
    archive_row product_id today (archive_row product_id today row) =
      archive_row product_id today row := by
  unfold archive_row
  by_cases h : row.product_id = product_id <;> simp [h]

/-- C5 (amended): when a row carries the id, `archive_product` succeeds and
stamps every matching row's `archived` field with today's date, after which
`list_registered_products` excludes the id; repeating the archive with the
same date is a strict no-op that still succeeds (it never errors, but on a
LATER date a repeat archive succeeds and re-stamps the date rather than
acting as a no-op — see the counterexample); an id on no row yields `False`
with the registry unchanged; and no modelled operation un-archives: archiving
never blanks an `archived` field and registration only appends. -/
theorem archive_monotonicity_amended (registry : List RegistryRow)
    (product_id today : String) (htoday : today ≠ "") :
    ((archive_product registry product_id today).1 = true ↔
      ∃ row ∈ registry, row.product_id = product_id) ∧
    (∀ row ∈ (archive_product registry product_id today).2,
      row.product_id = product_id → row.archived = today) ∧
    (∀ p ∈ list_registered_products (archive_product registry product_id today).2,
      p.product_id ≠ product_id) ∧
    (archive_product (archive_product registry product_id today).2 product_id today =
      archive_product registry product_id today) ∧
    ((¬∃ row ∈ registry, row.product_id = product_id) →
      archive_product registry product_id today = (false, registry)) ∧
    (∀ (i : Nat) (row row' : RegistryRow), registry[i]? = some row →
      (archive_product registry product_id today).2[i]? = some row' →
      row.archived ≠ "" → row'.archived ≠ "") ∧
    (∀ n u reg2, register_new_product registry n u = .ok reg2 →
      ∃ t, reg2 = registry ++ t) := by
  have hiff : (registry.any fun row => row.product_id == product_id) = true ↔
      ∃ row ∈ registry, row.product_id = product_id := by
    rw [List.any_eq_true]
    simp only [beq_iff_eq]
  by_cases hany : (registry.any fun row => row.product_id == product_id) = true
  · have harch : archive_product registry product_id today =
        (true, registry.map (archive_row product_id today)) := by
      unfold archive_product
      rw [if_pos hany]
    refine ⟨?_, ?_, ?_, ?_, ?_, ?_, ?_⟩
    · rw [harch]
      exact ⟨fun _ => hiff.mp hany, fun _ => rfl⟩
    · rw [harch]
      intro row hrow hid
      obtain ⟨r, hr, hreq⟩ := List.mem_map.mp hrow
      subst hreq
      rw [archive_row_id] at hid
      unfold archive_row
      rw [if_pos hid]
    · rw [harch]
      intro p hp
      unfold list_registered_products filter_active_products at hp
      rw [List.mem_filter] at hp
      obtain ⟨hpmem, hpact⟩ := hp
      obtain ⟨r2, hr2, hr2eq⟩ := List.mem_map.mp hpmem
      obtain ⟨r, hr, hreq⟩ := List.mem_map.mp hr2
      subst hreq
      subst hr2eq
      intro hpid
      have hid : r.product_id = product_id := by
        rw [← archive_row_id product_id today r]
        exact hpid
      have : archive_row product_id today r = { r with archived := today } := by
        unfold archive_row
        rw [if_pos hid]
      rw [this] at hpact
      simp [rowToDTO, truthyOpt, htoday] at hpact
    · rw [harch]
      have hany2 : ((registry.map (archive_row product_id today)).any
          fun row => row.product_id == product_id) = true := by
        rw [List.any_map]
        rw [List.any_eq_true] at hany ⊢
        obtain ⟨row, hrow, hc⟩ := hany
        exact ⟨row, hrow, by simpa [Function.comp, archive_row_id] using hc⟩
      unfold archive_product
      rw [if_pos hany2, List.map_map]
      have : (archive_row product_id today ∘ archive_row product_id today) =
          archive_row product_id today := by
        funext r
        exact archive_row_idem product_id today r
      rw [this]
    · intro hno
      exact absurd (hiff.mp hany) hno
    · intro i row row' hrow hrow'
      rw [harch] at hrow'
      have hrow2 : (registry.map (archive_row product_id today))[i]? = some row' := hrow'
      rw [List.getElem?_map, hrow] at hrow2
      simp only [Option.map_some', Option.some.injEq] at hrow2
      subst hrow2
      intro hne
      unfold archive_row
      by_cases hid : row.product_id = product_id
      · rw [if_pos hid]
        exact htoday
      · rw [if_neg hid]
        exact hne
    · intro n u reg2 hreg
      unfold register_new_product at hreg
      by_cases hdup : registry.any fun row =>
          lowerStr row.product_name == lowerStr n ||
            row.product_url == get_simplified_amazon_url u
      · rw [if_pos hdup] at hreg
        exact absurd hreg (by simp)
      · rw [if_neg hdup] at hreg
        injection hreg with h2
        exact ⟨_, h2.symm⟩
  · have harch : archive_product registry product_id today = (false, registry) := by
      unfold archive_product
      rw [if_neg hany]
    refine ⟨?_, ?_, ?_, ?_, ?_, ?_, ?_⟩
    · rw [harch]
      simp only [Bool.false_eq_true, false_iff]
      intro hex
      exact hany (hiff.mpr hex)
    · rw [harch]
      intro row hrow hid
      exact absurd (hiff.mpr ⟨row, hrow, hid⟩) hany
    · rw [harch]
      intro p hp hpid
      unfold list_registered_products filter_active_products at hp
      rw [List.mem_filter] at hp
      obtain ⟨r, hr, hreq⟩ := List.mem_map.mp hp.1
      apply hany
      apply hiff.mpr
      refine ⟨r, hr, ?_⟩
      rw [← hpid, ← hreq]
      rfl
    · rw [harch]
      exact harch
    · intro _
      exact harch
    · intro i row row' hrow hrow' hne
      rw [harch] at hrow'
      have hrow2 : registry[i]? = some row' := hrow'
      rw [hrow] at hrow2
      injection hrow2 with h2
      rw [← h2]
      exact hne
    · intro n u reg2 hreg
      unfold register_new_product at hreg
      by_cases hdup : registry.any fun row =>
          lowerStr row.product_name == lowerStr n ||
            row.product_url == get_simplified_amazon_url u
      · rw [if_pos hdup] at hreg
        exact absurd hreg (by simp)
      · rw [if_neg hdup] at hreg
        injection hreg with h2
        exact ⟨_, h2.symm⟩

/-- C5 counterexample: the row with id `aa` is already archived with date
2024-01-01; a second archive on a later day neither reports not-found-active
nor acts as a no-op: it succeeds and rewrites the archived date. -/
theorem archive_rearchive_counterexample :
    (archive_product [⟨"W", "u", "aa", "2024-01-01"⟩] "aa" "2025-06-01").1 = true ∧
    (archive_product [⟨"W", "u", "aa", "2025-06-01"⟩] "aa" "2025-06-01").2 =
      [⟨"W", "u", "aa", "2025-06-01"⟩] ∧
    (archive_product [⟨"W", "u", "aa", "2024-01-01"⟩] "aa" "2025-06-01").2 ≠
      [⟨"W", "u", "aa", "2024-01-01"⟩] := by
  refine ⟨by decide, by decide, by decide⟩

/-- Witness for the amended C5 theorem on a one-row registry: archiving
succeeds, the date is stamped, and the id disappears from the active
listing. -/
theorem archive_monotonicity_amended_witness :
    (("2025-01-01" : String) ≠ "") ∧
    ((archive_product [⟨"W", "u", "aa", ""⟩] "aa" "2025-01-01").1 = true ↔
      ∃ row ∈ [(⟨"W", "u", "aa", ""⟩ : RegistryRow)], row.product_id = "aa") ∧
    (∀ p ∈ list_registered_products
        (archive_product [⟨"W", "u", "aa", ""⟩] "aa" "2025-01-01").2,
      p.product_id ≠ "aa") :=
  ⟨by decide,
    (archive_monotonicity_amended [⟨"W", "u", "aa", ""⟩] "aa" "2025-01-01" (by decide)).1,
    (archive_monotonicity_amended [⟨"W", "u", "aa", ""⟩] "aa" "2025-01-01"
      (by decide)).2.2.1⟩

/-! ## Model of the snapshot store (src/app/s3_data_handler.py)

An S3 listing entry is its key and `LastModified` stamp (modelled as a
natural number).  The price-file parser `get_prices_from_file` reads an
external CSV from S3; it enters the model as an oracle
`store : String → List (String × ℚ)` mapping a file key to its parsed price
dictionary.  `sorted(..., key=lambda obj: obj["LastModified"], reverse=True)`
is a stable descending sort, modelled by insertion sort (also stable). -/

structure S3Object where
  key : String
  lastModified : Nat
deriving DecidableEq

/-- Python `key.endswith("/")` for the one-character suffix used by the
code: the last character is a slash. -/
def endsWithSlash (s : String) : Bool :=
  s.data.getLast? = some '/'

def insertByRecency (o : S3Object) : List S3Object → List S3Object
  | [] => [o]
  | x :: rest =>
    if x.lastModified ≤ o.lastModified then o :: x :: rest
    else x :: insertByRecency o rest

def sortByRecencyDesc : List S3Object → List S3Object
  | [] => []
  | o :: rest => insertByRecency o (sortByRecencyDesc rest)

theorem insertByRecency_perm (o : S3Object) (l : List S3Object) :
    (insertByRecency o l).Perm (o :: l) := by
  induction l with
  | nil => simp [insertByRecency]
  | cons x rest ih =>
    unfold insertByRecency
    by_cases h : x.lastModified ≤ o.lastModified
    · rw [if_pos h]
    · rw [if_neg h]
      exact (ih.cons x).trans (List.Perm.swap o x rest)

theorem sortByRecencyDesc_perm (l : List S3Object) :
    (sortByRecencyDesc l).Perm l := by
  induction l with
  | nil => simp [sortByRecencyDesc]
  | cons o rest ih =>
    exact (insertByRecency_perm o (sortByRecencyDesc rest)).trans (ih.cons o)

theorem insertByRecency_pairwise (o : S3Object) (l : List S3Object)
    (hl : l.Pairwise fun a b => b.lastModified ≤ a.lastModified) :
    (insertByRecency o l).Pairwise fun a b => b.lastModified ≤ a.lastModified := by
  induction l with
  | nil => simp [insertByRecency]
  | cons x rest ih =>
    rw [List.pairwise_cons] at hl
    unfold insertByRecency
    by_cases h : x.lastModified ≤ o.lastModified
    · rw [if_pos h]
      rw [List.pairwise_cons]
      refine ⟨?_, List.pairwise_cons.mpr hl⟩
      intro y hy
      rcases List.mem_cons.mp hy with h1 | h1
      · rw [h1]; exact h
      · exact le_trans (hl.1 y h1) h
    · rw [if_neg h]
      rw [List.pairwise_cons]
      refine ⟨?_, ih hl.2⟩
      intro y hy
      have hy2 : y ∈ o :: rest := (insertByRecency_perm o rest).mem_iff.mp hy
      rcases List.mem_cons.mp hy2 with h1 | h1
      · rw [h1]; exact le_of_lt (lt_of_not_le h)
      · exact hl.1 y h1

theorem sortByRecencyDesc_pairwise (l : List S3Object) :
    (sortByRecencyDesc l).Pairwise fun a b => b.lastModified ≤ a.lastModified := by
  induction l with
  | nil => simp [sortByRecencyDesc]
  | cons o rest ih => exact insertByRecency_pairwise o (sortByRecencyDesc rest) ih

inductive SnapshotPairResult
  | emptyNoContents
  | unpackError
  | ok (older newer : List (String × ℚ))
deriving DecidableEq

/-- Model of `S3DataHandler.get_two_most_recent_prices`.  With no listed
objects the S3 response has no `Contents` and the code returns a bare `[]`
(`emptyNoContents`); otherwise keys ending in `/` are dropped, the rest are
sorted by `LastModified` descending, and the first two keys are unpacked as
`(current, previous)` — a `ValueError` (`unpackError`) when fewer than two
remain — returning the parsed pair `(previous, current)`, older first. -/
def get_two_most_recent_prices (store : String → List (String × ℚ))
    (objects : List S3Object) : SnapshotPairResult :=
  if objects.isEmpty then .emptyNoContents
  else
    match sortByRecencyDesc (objects.filter fun o => !endsWithSlash o.key) with
    | current :: previous :: _ => .ok (store previous.key) (store current.key)
    | _ => .unpackError

/-- C2: `get_two_most_recent_prices` orders the non-directory snapshot files
by storage modification time descending (the sorted listing is a permutation
of the files, pairwise descending); it yields a pair exactly when at least
two snapshot files exist, and otherwise returns the empty marker or raises;
in the successful case the two newest files are chosen with the older one
first, and the newest dominates every file's timestamp. -/
theorem two_most_recent_snapshot_selection (store : String → List (String × ℚ))
    (objects : List S3Object) :
    ((sortByRecencyDesc (objects.filter fun o => !endsWithSlash o.key)).Perm
      (objects.filter fun o => !endsWithSlash o.key)) ∧
    ((sortByRecencyDesc (objects.filter fun o => !endsWithSlash o.key)).Pairwise
      fun a b => b.lastModified ≤ a.lastModified) ∧
    ((∃ older newer, get_two_most_recent_prices store objects = .ok older newer) ↔
      2 ≤ (objects.filter fun o => !endsWithSlash o.key).length) ∧
    (∀ a b rest,
      sortByRecencyDesc (objects.filter fun o => !endsWithSlash o.key) = a :: b :: rest →
      get_two_most_recent_prices store objects = .ok (store b.key) (store a.key) ∧
      b.lastModified ≤ a.lastModified ∧
      ∀ c ∈ (objects.filter fun o => !endsWithSlash o.key),
        c.lastModified ≤ a.lastModified) := by
  have hperm := sortByRecencyDesc_perm (objects.filter fun o => !endsWithSlash o.key)
  have hpair := sortByRecencyDesc_pairwise (objects.filter fun o => !endsWithSlash o.key)
  have hlen := hperm.length_eq
  refine ⟨hperm, hpair, ?_, ?_⟩
  · by_cases hempty : objects.isEmpty
    · rw [show get_two_most_recent_prices store objects = .emptyNoContents by
        unfold get_two_most_recent_prices; rw [if_pos hempty]]
      have : objects = [] := List.isEmpty_iff.mp hempty
      subst this
      simp
    · have hunfold : get_two_most_recent_prices store objects =
          match sortByRecencyDesc (objects.filter fun o => !endsWithSlash o.key) with
          | current :: previous :: _ => .ok (store previous.key) (store current.key)
          | _ => .unpackError := by
        unfold get_two_most_recent_prices
        rw [if_neg hempty]
      rcases hs : sortByRecencyDesc (objects.filter fun o => !endsWithSlash o.key) with
        _ | ⟨a, _ | ⟨b, rest⟩⟩
      · rw [hunfold, hs]
        rw [hs] at hlen
        simp at hlen
        constructor
        · rintro ⟨o, n, h⟩; exact absurd h (by simp)
        · intro h; rw [← hlen] at h; exact absurd h (by norm_num)
      · rw [hunfold, hs]
        rw [hs] at hlen
        simp at hlen
        constructor
        · rintro ⟨o, n, h⟩; exact absurd h (by simp)
        · intro h; rw [← hlen] at h; exact absurd h (by norm_num)
      · rw [hunfold, hs]
        rw [hs] at hlen
        constructor
        · intro _
          rw [← hlen]
          simp only [List.length_cons]
          omega
        · intro _
          exact ⟨store b.key, store a.key, rfl⟩
  · intro a b rest hs
    have hne : ¬objects.isEmpty := by
      intro hempty
      have : objects = [] := List.isEmpty_iff.mp hempty
      subst this
      simp [sortByRecencyDesc] at hs
    have hunfold : get_two_most_recent_prices store objects =
        match sortByRecencyDesc (objects.filter fun o => !endsWithSlash o.key) with
        | current :: previous :: _ => .ok (store previous.key) (store current.key)
        | _ => .unpackError := by
      unfold get_two_most_recent_prices
      rw [if_neg hne]
    rw [hs] at hpair
    rw [List.pairwise_cons] at hpair
    refine ⟨by rw [hunfold, hs], hpair.1 b (List.mem_cons_self _ _), ?_⟩
    intro c hc
    have hc2 : c ∈ a :: b :: rest := hs ▸ hperm.symm.subset hc
    rcases List.mem_cons.mp hc2 with h1 | h1
    · rw [h1]
    · exact hpair.1 c h1

/-- Witness for C2 on a three-object listing (one directory marker, two
snapshot files): the newest file is current, the second-newest previous, and
the returned pair is older-first. -/
theorem two_most_recent_snapshot_selection_witness :
    get_two_most_recent_prices
      (fun k => if k = "product_price_history/2025-01-01.csv"
        then [("A", (10 : ℚ))] else [("A", (9 : ℚ))])
      [⟨"product_price_history/2025-01-01.csv", 100⟩,
       ⟨"product_price_history/2025-01-02.csv", 200⟩,
       ⟨"product_price_history/", 50⟩] =
      .ok [("A", (10 : ℚ))] [("A", (9 : ℚ))] :=
  ((two_most_recent_snapshot_selection
      (fun k => if k = "product_price_history/2025-01-01.csv"
        then [("A", (10 : ℚ))] else [("A", (9 : ℚ))])
      [⟨"product_price_history/2025-01-01.csv", 100⟩,
       ⟨"product_price_history/2025-01-02.csv", 200⟩,
       ⟨"product_price_history/", 50⟩]).2.2.2
    ⟨"product_price_history/2025-01-02.csv", 200⟩
    ⟨"product_price_history/2025-01-01.csv", 100⟩ [] (by decide)).1

/-! ## Model of the drop detector (src/app/price_data_processor.py)

`PriceDataProcessor.check_price_drops` unpacks the snapshot pair, lists the
ids of `older` whose price in `newer` (infinity when absent) is strictly
below the old price, resolves those ids through `get_products_with_ids`, and
builds one `PriceDropDTO` per dropped id.  `products_info[product_id]` is a
plain dict index: it raises a `KeyError` when the resolved mapping lacks the
id (which happens exactly when the product's registry row is archived, since
`get_products_with_ids` silently filters archived rows). -/

structure PriceDropDTO where
  product_name : String
  url : String
  product_id : String
  previous_price : ℚ
  current_price : ℚ
deriving DecidableEq

/-- The drop condition of the list comprehension:
`float(current_prices.get(product_id, float("inf"))) < float(previous_price)`
(a missing id means infinite current price, hence never a drop). -/
def isDrop (current_prices : List (String × ℚ)) (pr : String × ℚ) : Bool :=
  match current_prices.lookup pr.1 with
  | some c => c < pr.2
  | none => false

/-- The DTO-building loop over the dropped ids; `none` models the `KeyError`
raised by `products_info[product_id]` (the two price indexings cannot fail
for a dropped id, but are modelled as the same dict indexing the code
performs). -/
def buildDrops (prev cur : List (String × ℚ)) (info : List (String × ProductDTO)) :
    List String → Option (List PriceDropDTO)
  | [] => some []
  | pid :: rest =>
    match prev.lookup pid, cur.lookup pid, info.lookup pid with
    | some p, some c, some i =>
      (buildDrops prev cur info rest).map (⟨i.product_name, i.url, pid, p, c⟩ :: ·)
    | _, _, _ => none

inductive DetectResult
  | snapshotUnpackError
  | registryKeyError (missing : List String)
  | productInfoKeyError
  | ok (drops : List PriceDropDTO)
deriving DecidableEq

/-- Model of `PriceDataProcessor.check_price_drops`. -/
def check_price_drops (registry : List RegistryRow) (cache : List ProductDTO)
    (store : String → List (String × ℚ)) (objects : List S3Object) : DetectResult :=
  match get_two_most_recent_prices store objects with
  | .ok previous_prices current_prices =>
    let drop_ids := (previous_prices.filter (isDrop current_prices)).map Prod.fst
    match get_products_with_ids registry cache drop_ids with
    | .keyError m => .registryKeyError m
    | .ok products_info =>
      match buildDrops previous_prices current_prices products_info drop_ids with
      | some drops => .ok drops
      | none => .productInfoKeyError
  | _ => .snapshotUnpackError

theorem lookup_eq_some_of_nodup {β : Type} (l : List (String × β))
    (hnd : (l.map Prod.fst).Nodup) (pid : String) (v : β) :
    l.lookup pid = some v ↔ (pid, v) ∈ l := by
  induction l with
  | nil => simp [List.lookup]
  | cons kv rest ih =>
    obtain ⟨k, w⟩ := kv
    rw [List.map_cons, List.nodup_cons] at hnd
    by_cases hk : pid = k
    · subst hk
      rw [show List.lookup pid ((pid, w) :: rest) = some w by simp [List.lookup]]
      constructor
      · intro h
        injection h with h2
        subst h2
        exact List.mem_cons_self _ _
      · intro h
        rcases List.mem_cons.mp h with h1 | h1
        · rw [((Prod.mk.injEq _ _ _ _).mp h1).2]
        · exfalso
          exact hnd.1 (List.mem_map.mpr ⟨(pid, v), h1, rfl⟩)
    · rw [show List.lookup pid ((k, w) :: rest) = List.lookup pid rest by
        simp only [List.lookup]
        rw [show (pid == k) = false from beq_eq_false_iff_ne.mpr hk], ih hnd.2]
      constructor
      · exact fun h => List.mem_cons_of_mem _ h
      · intro h
        rcases List.mem_cons.mp h with h1 | h1
        · exact absurd ((Prod.mk.injEq _ _ _ _).mp h1).1 hk
        · exact h1

theorem buildDrops_spec (prev cur : List (String × ℚ))
    (info : List (String × ProductDTO)) :
    ∀ ids drops, buildDrops prev cur info ids = some drops →
      drops.map PriceDropDTO.product_id = ids ∧
      ∀ d ∈ drops, prev.lookup d.product_id = some d.previous_price ∧
        cur.lookup d.product_id = some d.current_price := by
  intro ids
  induction ids with
  | nil =>
    intro drops h
    unfold buildDrops at h
    injection h with h2
    subst h2
    simp
  | cons pid rest ih =>
    intro drops h
    unfold buildDrops at h
    rcases hp : prev.lookup pid with _ | p <;> rw [hp] at h
    · exact absurd h (by simp)
    rcases hc : cur.lookup pid with _ | c <;> rw [hc] at h
    · exact absurd h (by simp)
    rcases hi : info.lookup pid with _ | i <;> rw [hi] at h
    · exact absurd h (by simp)
    rcases hrest : buildDrops prev cur info rest with _ | ds <;> rw [hrest] at h
    · exact absurd h (by simp)
    simp only [Option.map_some', Option.some.injEq] at h
    subst h
    obtain ⟨hmap, hmem⟩ := ih ds hrest
    refine ⟨by simp [hmap], ?_⟩
    intro d hd
    rcases List.mem_cons.mp hd with h1 | h1
    · subst h1
      exact ⟨hp, hc⟩
    · exact hmem d h1

theorem isDrop_iff (cur : List (String × ℚ)) (pid : String) (p : ℚ) :
    isDrop cur (pid, p) = true ↔ ∃ c, cur.lookup pid = some c ∧ c < p := by
  unfold isDrop
  rcases h : cur.lookup pid with _ | c
  · simp
  · simp

/-- C1: whenever the detector completes (`.ok drops` — the snapshot pair
unpacked as `(previous_prices, current_prices)` and every dropped id resolved
to an active registry row), an id of the older mapping has a `PriceDropDTO`
in the result exactly when the newer mapping carries it with a strictly
smaller parsed price; an id absent from the newer mapping is compared against
infinity and never yields a drop; and every emitted drop carries that id's
older-mapping price as `previous_price` and newer-mapping price as
`current_price`. -/
theorem check_price_drops_drop_detection (registry : List RegistryRow)
    (cache : List ProductDTO) (store : String → List (String × ℚ))
    (objects : List S3Object) (previous_prices current_prices : List (String × ℚ))
    (hpair : get_two_most_recent_prices store objects =
      .ok previous_prices current_prices)
    (hnd : (previous_prices.map Prod.fst).Nodup)
    (drops : List PriceDropDTO)
    (hok : check_price_drops registry cache store objects = .ok drops) :
    ∀ pid p, previous_prices.lookup pid = some p →
      (((∃ d ∈ drops, d.product_id = pid) ↔
        ∃ c, current_prices.lookup pid = some c ∧ c < p) ∧
       (∀ d ∈ drops, d.product_id = pid →
         d.previous_price = p ∧ current_prices.lookup pid = some d.current_price ∧
           d.current_price < p)) := by
  intro pid p hp
  unfold check_price_drops at hok
  rw [hpair] at hok
  dsimp only at hok
  rcases hinfo : get_products_with_ids registry cache
      ((previous_prices.filter (isDrop current_prices)).map Prod.fst) with m | info <;>
    rw [hinfo] at hok
  · exact absurd hok (by simp)
  dsimp only at hok
  rcases hbd : buildDrops previous_prices current_prices info
      ((previous_prices.filter (isDrop current_prices)).map Prod.fst) with _ | ds <;>
    rw [hbd] at hok
  · exact absurd hok (by simp)
  have hds : ds = drops := by
    have h2 : DetectResult.ok ds = DetectResult.ok drops := hok
    exact DetectResult.ok.inj h2
  rw [hds] at hbd
  obtain ⟨hmap, hmem⟩ := buildDrops_spec previous_prices current_prices info _ drops hbd
  have hdropids : ∀ q : String, q ∈ (previous_prices.filter
      (isDrop current_prices)).map Prod.fst ↔
      ∃ pr ∈ previous_prices, pr.1 = q ∧ isDrop current_prices pr = true := by
    intro q
    rw [List.mem_map]
    constructor
    · rintro ⟨pr, hpr, hq⟩
      rw [List.mem_filter] at hpr
      exact ⟨pr, hpr.1, hq, hpr.2⟩
    · rintro ⟨pr, hpr, hq, hdrop⟩
      exact ⟨pr, List.mem_filter.mpr ⟨hpr, hdrop⟩, hq⟩
  constructor
  · constructor
    · rintro ⟨d, hd, hdid⟩
      have : d.product_id ∈ (previous_prices.filter
          (isDrop current_prices)).map Prod.fst := by
        rw [← hmap]
        exact List.mem_map.mpr ⟨d, hd, rfl⟩
      rw [hdid] at this
      obtain ⟨pr, hpr, hq, hdrop⟩ := (hdropids pid).mp this
      have hpr2 : previous_prices.lookup pid = some pr.2 := by
        rw [lookup_eq_some_of_nodup previous_prices hnd]
        rw [← hq]
        exact hpr
      rw [hp] at hpr2
      injection hpr2 with hpv
      have : isDrop current_prices (pid, p) = true := by
        have : pr = (pid, p) := by
          obtain ⟨a, b⟩ := pr
          simp only at hq hpv
          rw [hq, ← hpv]
        rw [← this]
        exact hdrop
      exact (isDrop_iff current_prices pid p).mp this
    · rintro ⟨c, hc, hlt⟩
      have hmemprev : (pid, p) ∈ previous_prices :=
        (lookup_eq_some_of_nodup previous_prices hnd pid p).mp hp
      have hdrop : isDrop current_prices (pid, p) = true :=
        (isDrop_iff current_prices pid p).mpr ⟨c, hc, hlt⟩
      have : pid ∈ (previous_prices.filter (isDrop current_prices)).map Prod.fst :=
        (hdropids pid).mpr ⟨(pid, p), hmemprev, rfl, hdrop⟩
      rw [← hmap] at this
      obtain ⟨d, hd, hdid⟩ := List.mem_map.mp this
      exact ⟨d, hd, hdid⟩
  · intro d hd hdid
    obtain ⟨hdp, hdc⟩ := hmem d hd
    rw [hdid] at hdp hdc
    rw [hp] at hdp
    injection hdp with hdp2
    refine ⟨hdp2.symm, hdc, ?_⟩
    have : d.product_id ∈ (previous_prices.filter
        (isDrop current_prices)).map Prod.fst := by
      rw [← hmap]
      exact List.mem_map.mpr ⟨d, hd, rfl⟩
    rw [hdid] at this
    obtain ⟨pr, hpr, hq, hdrop⟩ := (hdropids pid).mp this
    have hpr2 : previous_prices.lookup pid = some pr.2 := by
      rw [lookup_eq_some_of_nodup previous_prices hnd]
      rw [← hq]
      exact hpr
    rw [hp] at hpr2
    injection hpr2 with hpv
    have hdrop2 : isDrop current_prices (pid, p) = true := by
      have : pr = (pid, p) := by
        obtain ⟨a, b⟩ := pr
        simp only at hq hpv
        rw [hq, ← hpv]
      rw [← this]
      exact hdrop
    obtain ⟨c, hc, hlt⟩ := (isDrop_iff current_prices pid p).mp hdrop2
    rw [hdc] at hc
    injection hc with hc2
    rw [hc2]
    exact hlt

/-- Witness for C1 on the spec's own example: older `A:10, B:20`, newer
`A:9, B:20` yields exactly one drop, for `A`, with previous 10 and current
9. -/
theorem check_price_drops_drop_detection_witness :
    check_price_drops
      [⟨"Apple", "uA", "A", ""⟩, ⟨"Banana", "uB", "B", ""⟩] []
      (fun k => if k = "old.csv" then [("A", (10 : ℚ)), ("B", 20)]
        else [("A", 9), ("B", 20)])
      [⟨"old.csv", 100⟩, ⟨"new.csv", 200⟩] =
      .ok [⟨"Apple", "uA", "A", 10, 9⟩] ∧
    (((∃ d ∈ [(⟨"Apple", "uA", "A", 10, 9⟩ : PriceDropDTO)], d.product_id = "A") ↔
      ∃ c, ([("A", (9 : ℚ)), ("B", 20)] : List (String × ℚ)).lookup "A" = some c ∧
        c < 10)) :=
  ⟨by decide,
    ((check_price_drops_drop_detection
      [⟨"Apple", "uA", "A", ""⟩, ⟨"Banana", "uB", "B", ""⟩] []
      (fun k => if k = "old.csv" then [("A", (10 : ℚ)), ("B", 20)]
        else [("A", 9), ("B", 20)])
      [⟨"old.csv", 100⟩, ⟨"new.csv", 200⟩]
      [("A", (10 : ℚ)), ("B", 20)] [("A", (9 : ℚ)), ("B", 20)]
      (by decide) (by decide) [⟨"Apple", "uA", "A", 10, 9⟩] (by decide))
      "A" 10 (by decide)).1⟩

/-! ## Model of the extractor and the run pipeline
(src/app/amazon_price_checker.py)

The network call and the BeautifulSoup selectors are external: a product's
scrape enters the model as an oracle `scrape : ProductDTO → ScrapeOutcome`,
where `failure` stands for any exception the generic handler catches (a
missing price element, a network error, an exhausted retry loop) and
`quotaExhausted` for the `InsuffcientScraperAPIQuotaException` raised by
`_check_insufficient_scraper_api_quota`.  The `AmazonPriceExtractor.__init__`
assigns `self.scraper_api_key` but never `self.scraper_api_key_name`, so the
extractor state carries that attribute as `none`; reading it raises an
`AttributeError`. -/

structure HttpResponse where
  status_code : Nat
  text : String

/-- Python `needle in hay` on strings: substring containment. -/
def isInfixStr (needle hay : List Char) : Bool :=
  decide (needle <:+: hay)

/-- Model of `AmazonPriceExtractor._check_insufficient_scraper_api_quota`:
the quota exception is raised exactly when the status is 403 and the
lowercased body contains all three marker phrases. -/
def check_insufficient_scraper_api_quota (r : HttpResponse) : Bool :=
  r.status_code == 403 &&
    (["exhausted", "api credits", "scraperapi"].all fun kw =>
      isInfixStr kw.data (lowerStr r.text).data)

inductive ScrapeOutcome
  | price (p : String)
  | quotaExhausted
  | failure
deriving DecidableEq

/-- Model of `AmazonPriceExtractor.get_amazon_price_with_soup` given the
response for the product's URL and the soup price extraction as an oracle
(`none` models the exception a missing price element raises). -/
def get_amazon_price_with_soup (response : HttpResponse)
    (soup_price : String → Option String) : ScrapeOutcome :=
  if check_insufficient_scraper_api_quota response then .quotaExhausted
  else match soup_price response.text with
    | some p => .price p
    | none => .failure

/-- The extractor object state relevant to the quota path.  `__init__` never
assigns `scraper_api_key_name`, so the freshly constructed extractor carries
`none`. -/
structure ExtractorState where
  scraper_api_key_name : Option String

def extractorInit : ExtractorState := ⟨none⟩

inductive RetryOutcome
  | attributeError
  | restartWithSecondary
  | noop
deriving DecidableEq

/-- Model of `AmazonPriceExtractor._retry_with_secondary_scraper_api_key`:
it first reads `self.scraper_api_key_name`, which raises an `AttributeError`
when the attribute was never assigned; otherwise it restarts the whole run
with the secondary key exactly when the current name is the primary one. -/
def retry_with_secondary_scraper_api_key (s : ExtractorState) : RetryOutcome :=
  match s.scraper_api_key_name with
  | none => .attributeError
  | some n => if n = "SCRAPER_API_KEY" then .restartWithSecondary else .noop

inductive ExtractResult
  | done (products : List ProductDTO)
  | attributeError
  | returnedNone
deriving DecidableEq

/-- The per-product loop of
`AmazonPriceExtractor.extract_price_for_all_registered_products`: a price is
written onto the product, a generic failure is logged and skipped, and the
quota exception enters the handler that calls the secondary-key retry and
then returns `None` — the `AttributeError` raised inside that handler is not
caught by the surrounding `except Exception` and aborts the loop. -/
def extract_loop (scrape : ProductDTO → ScrapeOutcome) (s : ExtractorState) :
    List ProductDTO → ExtractResult
  | [] => .done []
  | p :: rest =>
    match scrape p with
    | .quotaExhausted =>
      match retry_with_secondary_scraper_api_key s with
      | .attributeError => .attributeError
      | _ => .returnedNone
    | .price pr =>
      match extract_loop scrape s rest with
      | .done ps => .done ({ p with price := some pr } :: ps)
      | other => other
    | .failure =>
      match extract_loop scrape s rest with
      | .done ps => .done (p :: ps)
      | other => other

def extract_price_for_all_registered_products (scrape : ProductDTO → ScrapeOutcome)
    (s : ExtractorState) (registry : List RegistryRow) : ExtractResult :=
  extract_loop scrape s (list_registered_products registry)

structure SnapshotRow where
  product_id : String
  date : String
  price : String
deriving DecidableEq

/-- Model of `S3DataHandler.store_prices`: one CSV row per product whose
`price` is truthy (set and non-empty), stamped with today's date. -/
def store_prices (products : List ProductDTO) (today : String) : List SnapshotRow :=
  (products.filter fun p => truthyOpt p.price).map fun p =>
    ⟨p.product_id, today, p.price.getD ""⟩

inductive RunResult
  | completed (stored : List SnapshotRow) (drops : List PriceDropDTO) (emailSent : Bool)
  | crashedAttributeError
  | crashedStoringNone
  | crashedDetect (r : DetectResult)
deriving DecidableEq

/-- Model of `AmazonPriceExtractor.run`: extract each product's price, store
the collected prices, then detect drops and (when any exist) send the alert
email.  The two quota-path outcomes surface as crashes: the `AttributeError`
from the handler, or — were the handler to finish — the `TypeError` of
`store_prices(None)` after `extract` returns `None`.  The chart plotting and
SMTP transport are outside the modelled state; `emailSent` records whether
the email branch is taken (exactly when the drop list is nonempty). -/
def run (scrape : ProductDTO → ScrapeOutcome) (s : ExtractorState)
    (registry : List RegistryRow) (cache : List ProductDTO)
    (store : String → List (String × ℚ)) (objects : List S3Object)
    (today : String) : RunResult :=
  match extract_price_for_all_registered_products scrape s registry with
  | .attributeError => .crashedAttributeError
  | .returnedNone => .crashedStoringNone
  | .done products =>
    match check_price_drops registry cache store objects with
    | .ok drops => .completed (store_prices products today) drops (decide (drops ≠ []))
    | r => .crashedDetect r

/-- The product record after its scrape: a fetched price is written onto the
DTO, any failure leaves it untouched. -/
def applyScrape (scrape : ProductDTO → ScrapeOutcome) (p : ProductDTO) : ProductDTO :=
  match scrape p with
  | .price pr => { p with price := some pr }
  | _ => p

theorem extract_loop_no_quota (scrape : ProductDTO → ScrapeOutcome)
    (s : ExtractorState) (l : List ProductDTO)
    (hnq : ∀ p ∈ l, scrape p ≠ .quotaExhausted) :
    extract_loop scrape s l = .done (l.map (applyScrape scrape)) := by
  induction l with
  | nil => rfl
  | cons p rest ih =>
    have hnqr : ∀ q ∈ rest, scrape q ≠ .quotaExhausted :=
      fun q hq => hnq q (List.mem_cons_of_mem _ hq)
    unfold extract_loop
    rcases hs : scrape p with pr | _ | _
    · rw [ih hnqr]
      simp [applyScrape, hs]
    · exact absurd hs (hnq p (List.mem_cons_self _ _))
    · rw [ih hnqr]
      simp [applyScrape, hs]

theorem list_registered_products_price_none (registry : List RegistryRow) :
    ∀ q ∈ list_registered_products registry, q.price = none := by
  intro q hq
  unfold list_registered_products filter_active_products at hq
  rw [List.mem_filter] at hq
  obtain ⟨r, _, hreq⟩ := List.mem_map.mp hq.1
  rw [← hreq]
  rfl

/-- C6: when no product's scrape signals the quota exception, a product
whose price-extraction fails is skipped and the extraction still completes
with every product's outcome recorded; the storing step writes a snapshot
row for exactly the products whose price was fetched (non-empty), and —
provided the detector itself completes — the run proceeds through detection
and notification to the completed state instead of aborting. -/
theorem extract_partial_failure_tolerance (scrape : ProductDTO → ScrapeOutcome)
    (registry : List RegistryRow) (cache : List ProductDTO)
    (store : String → List (String × ℚ)) (objects : List S3Object) (today : String)
    (hnq : ∀ p ∈ list_registered_products registry, scrape p ≠ .quotaExhausted)
    (drops : List PriceDropDTO)
    (hdet : check_price_drops registry cache store objects = .ok drops) :
    extract_price_for_all_registered_products scrape extractorInit registry =
      .done ((list_registered_products registry).map (applyScrape scrape)) ∧
    (∀ p ∈ list_registered_products registry, ∀ pr, scrape p = .price pr → pr ≠ "" →
      (⟨p.product_id, today, pr⟩ : SnapshotRow) ∈
        store_prices ((list_registered_products registry).map (applyScrape scrape))
          today) ∧
    (∀ row ∈ store_prices ((list_registered_products registry).map (applyScrape scrape))
        today,
      ∃ q ∈ list_registered_products registry, ∃ pr, scrape q = .price pr ∧ pr ≠ "" ∧
        row = ⟨q.product_id, today, pr⟩) ∧
    run scrape extractorInit registry cache store objects today =
      .completed
        (store_prices ((list_registered_products registry).map (applyScrape scrape))
          today)
        drops (decide (drops ≠ [])) := by
  have hext : extract_price_for_all_registered_products scrape extractorInit registry =
      .done ((list_registered_products registry).map (applyScrape scrape)) :=
    extract_loop_no_quota scrape extractorInit _ hnq
  refine ⟨hext, ?_, ?_, ?_⟩
  · intro p hp pr hpr hne
    unfold store_prices
    rw [List.mem_map]
    refine ⟨applyScrape scrape p, ?_, ?_⟩
    · rw [List.mem_filter]
      refine ⟨List.mem_map.mpr ⟨p, hp, rfl⟩, ?_⟩
      simp [applyScrape, hpr, truthyOpt, hne]
    · simp [applyScrape, hpr]
  · intro row hrow
    unfold store_prices at hrow
    rw [List.mem_map] at hrow
    obtain ⟨q', hq', hroweq⟩ := hrow
    rw [List.mem_filter] at hq'
    obtain ⟨hq'mem, hq'act⟩ := hq'
    obtain ⟨q, hq, hqeq⟩ := List.mem_map.mp hq'mem
    rcases hs : scrape q with pr | _ | _
    · refine ⟨q, hq, pr, hs, ?_, ?_⟩
      · subst hqeq
        simp only [applyScrape, hs] at hq'act
        simpa [truthyOpt] using hq'act
      · subst hqeq
        rw [← hroweq]
        simp [applyScrape, hs]
    · exact absurd hs (hnq q hq)
    · exfalso
      subst hqeq
      simp only [applyScrape, hs] at hq'act
      rw [list_registered_products_price_none registry q hq] at hq'act
      simp [truthyOpt] at hq'act
  · unfold run
    rw [hext, hdet]

/-- Witness for C6: two active products, one scrape failure and one fetched
price; the run completes with exactly the fetched product's row stored. -/
theorem extract_partial_failure_tolerance_witness :
    (∀ p ∈ list_registered_products
        [⟨"Apple", "uA", "A", ""⟩, ⟨"Banana", "uB", "B", ""⟩],
      (fun q : ProductDTO => if q.product_id = "A" then ScrapeOutcome.failure
        else ScrapeOutcome.price "9.99") p ≠ .quotaExhausted) ∧
    run (fun q : ProductDTO => if q.product_id = "A" then ScrapeOutcome.failure
        else ScrapeOutcome.price "9.99") extractorInit
      [⟨"Apple", "uA", "A", ""⟩, ⟨"Banana", "uB", "B", ""⟩] []
      (fun _ => [("A", (10 : ℚ)), ("B", 20)])
      [⟨"old.csv", 100⟩, ⟨"new.csv", 200⟩] "2025-01-02" =
      .completed
        (store_prices
          ((list_registered_products
            [⟨"Apple", "uA", "A", ""⟩, ⟨"Banana", "uB", "B", ""⟩]).map
            (applyScrape (fun q : ProductDTO => if q.product_id = "A"
              then ScrapeOutcome.failure else ScrapeOutcome.price "9.99")))
          "2025-01-02")
        [] (decide (([] : List PriceDropDTO) ≠ [])) :=
  ⟨by decide,
    (extract_partial_failure_tolerance
      (fun q : ProductDTO => if q.product_id = "A" then ScrapeOutcome.failure
        else ScrapeOutcome.price "9.99")
      [⟨"Apple", "uA", "A", ""⟩, ⟨"Banana", "uB", "B", ""⟩] []
      (fun _ => [("A", (10 : ℚ)), ("B", 20)])
      [⟨"old.csv", 100⟩, ⟨"new.csv", 200⟩] "2025-01-02"
      (by decide) [] (by decide)).2.2.2⟩

theorem extract_loop_quota_attribute_error (scrape : ProductDTO → ScrapeOutcome)
    (l : List ProductDTO) (hq : ∃ p ∈ l, scrape p = .quotaExhausted) :
    extract_loop scrape extractorInit l = .attributeError := by
  induction l with
  | nil => simp at hq
  | cons p rest ih =>
    obtain ⟨q, hqmem, hqs⟩ := hq
    unfold extract_loop
    rcases List.mem_cons.mp hqmem with h1 | h1
    · subst h1
      rw [hqs]
      rfl
    · rcases hs : scrape p with pr | _ | _
      · rw [ih ⟨q, h1, hqs⟩]
      · rfl
      · rw [ih ⟨q, h1, hqs⟩]

/-- C9 (code bug): the quota-exhaustion predicate of the model holds exactly
on an HTTP 403 whose lowercased body mentions all of "exhausted",
"api credits" and "scraperapi", and such a response makes the scrape raise
the quota exception rather than retry the call.  But the recovery path the
claim describes is unreachable: `__init__` never assigns
`self.scraper_api_key_name`, so the handler's first read of that attribute
raises an `AttributeError`; as soon as any product's scrape signals
exhausted credits the extraction aborts with that `AttributeError` and the
run crashes — the secondary credential is never used. -/
theorem quota_attribute_error_bug (scrape : ProductDTO → ScrapeOutcome)
    (registry : List RegistryRow) (cache : List ProductDTO)
    (store : String → List (String × ℚ)) (objects : List S3Object) (today : String)
    (hq : ∃ p ∈ list_registered_products registry, scrape p = .quotaExhausted) :
    (∀ r : HttpResponse, check_insufficient_scraper_api_quota r = true ↔
      (r.status_code = 403 ∧ ∀ kw ∈ ["exhausted", "api credits", "scraperapi"],
        isInfixStr kw.data (lowerStr r.text).data = true)) ∧
    (∀ (r : HttpResponse) (soup_price : String → Option String),
      check_insufficient_scraper_api_quota r = true →
      get_amazon_price_with_soup r soup_price = .quotaExhausted) ∧
    retry_with_secondary_scraper_api_key extractorInit = .attributeError ∧
    extract_price_for_all_registered_products scrape extractorInit registry =
      .attributeError ∧
    run scrape extractorInit registry cache store objects today =
      .crashedAttributeError := by
  have hext : extract_price_for_all_registered_products scrape extractorInit registry =
      .attributeError :=
    extract_loop_quota_attribute_error scrape _ hq
  refine ⟨?_, ?_, rfl, hext, ?_⟩
  · intro r
    unfold check_insufficient_scraper_api_quota
    rw [Bool.and_eq_true, beq_iff_eq, List.all_eq_true]
  · intro r soup_price hcheck
    unfold get_amazon_price_with_soup
    rw [if_pos hcheck]
  · unfold run
    rw [hext]

/-- Witness for C9: a one-product registry whose scrape returns the quota
signal; the extraction and the whole run abort with the `AttributeError`. -/
theorem quota_attribute_error_bug_witness :
    (∃ p ∈ list_registered_products [⟨"Apple", "uA", "A", ""⟩],
      (fun _ : ProductDTO => ScrapeOutcome.quotaExhausted) p = .quotaExhausted) ∧
    run (fun _ : ProductDTO => ScrapeOutcome.quotaExhausted) extractorInit
      [⟨"Apple", "uA", "A", ""⟩] [] (fun _ => []) [] "2025-01-02" =
      .crashedAttributeError :=
  ⟨by decide,
    (quota_attribute_error_bug (fun _ : ProductDTO => ScrapeOutcome.quotaExhausted)
      [⟨"Apple", "uA", "A", ""⟩] [] (fun _ => []) [] "2025-01-02"
      (by decide)).2.2.2.2⟩

/-! ## Model of the chart renderer
(src/app/price_data_processor.py `_plot_price_graphs`)

For one product's group the code sorts by date, builds the daily
`pd.date_range` from the earliest to the latest observed date, reindexes on
it and forward-fills.  Dates are day-granular (`date_parse(date, '%Y-%m-%d')`
midnights), modelled as natural numbers; `reindex` demands unique dates
(pandas raises on duplicate labels), which is the `Nodup` hypothesis of the
theorem.  The figure rendering itself (axes, PNG bytes) is outside the
model: the rendered series is the list of (day, price) points plotted. -/

structure PricePoint where
  date : Nat
  price : ℚ
deriving DecidableEq

def insertByDate (o : PricePoint) : List PricePoint → List PricePoint
  | [] => [o]
  | x :: rest =>
    if o.date ≤ x.date then o :: x :: rest else x :: insertByDate o rest

def sortByDateAsc : List PricePoint → List PricePoint
  | [] => []
  | o :: rest => insertByDate o (sortByDateAsc rest)

/-- The reindex lookup: the observation recorded on day `d`, if any. -/
def valueOn (obs : List PricePoint) (d : Nat) : Option ℚ :=
  (obs.find? fun pt => pt.date == d).map PricePoint.price

/-- The forward fill along the full date range: a day with an observation
takes it and becomes the carried value; a day without keeps the carried
value. -/
def ffillFrom (obs : List PricePoint) : ℚ → List Nat → List PricePoint
  | _, [] => []
  | last, d :: rest =>
    match valueOn obs d with
    | some p => ⟨d, p⟩ :: ffillFrom obs p rest
    | none => ⟨d, last⟩ :: ffillFrom obs last rest

/-- The rendered series for one product's history: sort by date ascending,
then reindex the full daily range from the earliest to the latest observed
date with forward fill.  (The carried value starts at the earliest
observation's price; the earliest day always carries its own observation.) -/
def plot_price_series (history : List PricePoint) : List PricePoint :=
  match sortByDateAsc history with
  | [] => []
  | first :: rest =>
    ffillFrom (first :: rest) first.price
      (List.range' first.date ((rest.getLastD first).date + 1 - first.date))

example : plot_price_series [⟨1, 10⟩, ⟨3, 8⟩] = [⟨1, 10⟩, ⟨2, 10⟩, ⟨3, 8⟩] := by
  decide

theorem insertByDate_perm (o : PricePoint) (l : List PricePoint) :
    (insertByDate o l).Perm (o :: l) := by
  induction l with
  | nil => simp [insertByDate]
  | cons x rest ih =>
    unfold insertByDate
    by_cases h : o.date ≤ x.date
    · rw [if_pos h]
    · rw [if_neg h]
      exact (ih.cons x).trans (List.Perm.swap o x rest)

theorem sortByDateAsc_perm (l : List PricePoint) : (sortByDateAsc l).Perm l := by
  induction l with
  | nil => simp [sortByDateAsc]
  | cons o rest ih =>
    exact (insertByDate_perm o (sortByDateAsc rest)).trans (ih.cons o)

theorem insertByDate_pairwise (o : PricePoint) (l : List PricePoint)
    (hl : l.Pairwise fun a b => a.date ≤ b.date) :
    (insertByDate o l).Pairwise fun a b => a.date ≤ b.date := by
  induction l with
  | nil => simp [insertByDate]
  | cons x rest ih =>
    rw [List.pairwise_cons] at hl
    unfold insertByDate
    by_cases h : o.date ≤ x.date
    · rw [if_pos h]
      rw [List.pairwise_cons]
      refine ⟨?_, List.pairwise_cons.mpr hl⟩
      intro y hy
      rcases List.mem_cons.mp hy with h1 | h1
      · rw [h1]; exact h
      · exact le_trans h (hl.1 y h1)
    · rw [if_neg h]
      rw [List.pairwise_cons]
      refine ⟨?_, ih hl.2⟩
      intro y hy
      have hy2 : y ∈ o :: rest := (insertByDate_perm o rest).mem_iff.mp hy
      rcases List.mem_cons.mp hy2 with h1 | h1
      · rw [h1]; exact le_of_lt (lt_of_not_le h)
      · exact hl.1 y h1

theorem sortByDateAsc_pairwise (l : List PricePoint) :
    (sortByDateAsc l).Pairwise fun a b => a.date ≤ b.date := by
  induction l with
  | nil => simp [sortByDateAsc]
  | cons o rest ih => exact insertByDate_pairwise o (sortByDateAsc rest) ih

theorem ffillFrom_map_date (obs : List PricePoint) :
    ∀ (days : List Nat) (last : ℚ),
      (ffillFrom obs last days).map PricePoint.date = days := by
  intro days
  induction days with
  | nil => intro last; rfl
  | cons d rest ih =>
    intro last
    unfold ffillFrom
    rcases hv : valueOn obs d with _ | p
    · simp [ih last]
    · simp [ih p]

theorem valueOn_eq_some (obs : List PricePoint) (d : Nat) (p : ℚ)
    (h : valueOn obs d = some p) :
    ∃ pt ∈ obs, pt.date = d ∧ pt.price = p := by
  unfold valueOn at h
  rcases hf : obs.find? fun pt => pt.date == d with _ | pt
  · rw [hf] at h; exact absurd h (by simp)
  · rw [hf] at h
    have hmem := List.mem_of_find?_eq_some hf
    have hdate := List.find?_some hf
    rw [beq_iff_eq] at hdate
    injection h with h2
    exact ⟨pt, hmem, hdate, h2⟩

theorem valueOn_eq_none (obs : List PricePoint) (d : Nat)
    (h : valueOn obs d = none) : ∀ pt ∈ obs, pt.date ≠ d := by
  unfold valueOn at h
  rcases hf : obs.find? fun pt => pt.date == d with _ | pt
  · intro pt hpt
    have := List.find?_eq_none.mp hf pt hpt
    simpa using this
  · rw [hf] at h; exact absurd h (by simp)

theorem ffillFrom_spec (obs : List PricePoint) :
    ∀ (n d : Nat) (last : ℚ),
      ((∃ pt ∈ obs, pt.date < d ∧ pt.price = last ∧
          ∀ pt' ∈ obs, pt'.date < d → pt'.date ≤ pt.date) ∨
        (∀ pt ∈ obs, ¬ pt.date < d)) →
      ∀ q ∈ ffillFrom obs last (List.range' d n),
        (∃ pt ∈ obs, pt.date ≤ q.date ∧ pt.price = q.price ∧
          ∀ pt' ∈ obs, pt'.date ≤ q.date → pt'.date ≤ pt.date) ∨
        (∀ pt ∈ obs, ¬ pt.date ≤ q.date) := by
  intro n
  induction n with
  | zero => intro d last _ q hq; simp [ffillFrom] at hq
  | succ m ih =>
    intro d last hinv q hq
    rw [List.range'_succ] at hq
    unfold ffillFrom at hq
    rcases hv : valueOn obs d with _ | p <;> rw [hv] at hq
    · have hnone := valueOn_eq_none obs d hv
      rcases List.mem_cons.mp hq with h1 | h1
      · subst h1
        rcases hinv with ⟨pt, hpt, hlt, hprice, hmax⟩ | hno
        · left
          refine ⟨pt, hpt, le_of_lt hlt, hprice, ?_⟩
          intro pt' hpt' hle
          have : pt'.date < d := lt_of_le_of_ne hle (hnone pt' hpt')
          exact hmax pt' hpt' this
        · right
          intro pt hpt hle
          exact absurd (lt_of_le_of_ne hle (hnone pt hpt)) (hno pt hpt)
      · refine ih (d + 1) last ?_ q h1
        rcases hinv with ⟨pt, hpt, hlt, hprice, hmax⟩ | hno
        · left
          refine ⟨pt, hpt, Nat.lt_succ_of_lt hlt, hprice, ?_⟩
          intro pt' hpt' hlt'
          have : pt'.date < d :=
            lt_of_le_of_ne (Nat.lt_succ_iff.mp hlt') (hnone pt' hpt')
          exact hmax pt' hpt' this
        · right
          intro pt hpt hlt'
          exact absurd (lt_of_le_of_ne (Nat.lt_succ_iff.mp hlt') (hnone pt hpt))
            (hno pt hpt)
    · obtain ⟨pt0, hpt0, hdate0, hprice0⟩ := valueOn_eq_some obs d p hv
      rcases List.mem_cons.mp hq with h1 | h1
      · subst h1
        left
        refine ⟨pt0, hpt0, le_of_eq hdate0, hprice0, ?_⟩
        intro pt' _ hle
        rw [hdate0]
        exact hle
      · refine ih (d + 1) p ?_ q h1
        left
        refine ⟨pt0, hpt0, by rw [hdate0]; exact Nat.lt_succ_self d, hprice0, ?_⟩
        intro pt' _ hlt'
        rw [hdate0]
        exact Nat.lt_succ_iff.mp hlt'

theorem getLastD_mem (first : PricePoint) (rest : List PricePoint) :
    rest.getLastD first ∈ first :: rest := by
  induction rest generalizing first with
  | nil => simp
  | cons y rest' ih =>
    rw [List.getLastD_cons]
    rcases List.mem_cons.mp (ih y) with h1 | h1
    · rw [h1]
      exact List.mem_cons_of_mem _ (List.mem_cons_self _ _)
    · exact List.mem_cons_of_mem _ (List.mem_cons_of_mem _ h1)

theorem pairwise_le_getLastD (first : PricePoint) (rest : List PricePoint)
    (h : (first :: rest).Pairwise fun a b => a.date ≤ b.date) :
    ∀ x ∈ first :: rest, x.date ≤ (rest.getLastD first).date := by
  induction rest generalizing first with
  | nil =>
    intro x hx
    rcases List.mem_cons.mp hx with h1 | h1
    · rw [h1]; simp
    · simp at h1
  | cons y rest' ih =>
    rw [List.pairwise_cons] at h
    intro x hx
    rw [List.getLastD_cons]
    rcases List.mem_cons.mp hx with h1 | h1
    · subst h1
      exact le_trans (h.1 y (List.mem_cons_self _ _))
        (ih y h.2 y (List.mem_cons_self _ _))
    · exact ih y h.2 x h1

/-- C8: for a non-empty history with pairwise-distinct observation dates, the
rendered series has one point per calendar day from the earliest to the
latest observed date in ascending order, and each rendered point carries the
price of the latest observation on or before its day (the forward fill), so
the series has no gaps.  Determinism given identical input is intrinsic:
`plot_price_series` is a pure function. -/
theorem plot_forward_fill_spec (history : List PricePoint)
    (hne : history ≠ []) (_hnd : (history.map PricePoint.date).Nodup) :
    ∃ lo hi, lo ∈ history.map PricePoint.date ∧ hi ∈ history.map PricePoint.date ∧
      (∀ d ∈ history.map PricePoint.date, lo ≤ d ∧ d ≤ hi) ∧
      (plot_price_series history).map PricePoint.date =
        List.range' lo (hi + 1 - lo) ∧
      (∀ q ∈ plot_price_series history,
        ∃ pt ∈ history, pt.date ≤ q.date ∧ pt.price = q.price ∧
          ∀ pt' ∈ history, pt'.date ≤ q.date → pt'.date ≤ pt.date) := by
  have hperm := sortByDateAsc_perm history
  have hpair := sortByDateAsc_pairwise history
  rcases hs : sortByDateAsc history with _ | ⟨first, rest⟩
  · exfalso
    rw [hs] at hperm
    exact hne hperm.symm.eq_nil
  rw [hs] at hperm hpair
  have hmin : ∀ x ∈ first :: rest, first.date ≤ x.date := by
    intro x hx
    rcases List.mem_cons.mp hx with h1 | h1
    · rw [h1]
    · exact (List.pairwise_cons.mp hpair).1 x h1
  have hmax := pairwise_le_getLastD first rest hpair
  have hplot : plot_price_series history =
      ffillFrom (first :: rest) first.price
        (List.range' first.date ((rest.getLastD first).date + 1 - first.date)) := by
    unfold plot_price_series
    rw [hs]
  refine ⟨first.date, (rest.getLastD first).date, ?_, ?_, ?_, ?_, ?_⟩
  · rw [List.mem_map]
    exact ⟨first, hperm.subset (List.mem_cons_self _ _), rfl⟩
  · rw [List.mem_map]
    exact ⟨rest.getLastD first, hperm.subset (getLastD_mem first rest), rfl⟩
  · intro d hd
    obtain ⟨x, hx, hxd⟩ := List.mem_map.mp hd
    have hx2 : x ∈ first :: rest := hperm.mem_iff.mpr hx
    subst hxd
    exact ⟨hmin x hx2, hmax x hx2⟩
  · rw [hplot]
    exact ffillFrom_map_date _ _ _
  · intro q hq
    rw [hplot] at hq
    have hq2 := ffillFrom_spec (first :: rest)
      ((rest.getLastD first).date + 1 - first.date) first.date first.price
      (Or.inr fun pt hpt hlt => absurd (hmin pt hpt) (not_le_of_lt hlt)) q hq
    rcases hq2 with ⟨pt, hpt, hle, hprice, hm⟩ | hno
    · exact ⟨pt, hperm.subset hpt, hle, hprice,
        fun pt' hpt' hle' => hm pt' (hperm.mem_iff.mpr hpt') hle'⟩
    · exfalso
      have hqd : q.date ∈ List.range' first.date
          ((rest.getLastD first).date + 1 - first.date) := by
        rw [← ffillFrom_map_date (first :: rest)
          (List.range' first.date ((rest.getLastD first).date + 1 - first.date))
          first.price]
        exact List.mem_map.mpr ⟨q, hq, rfl⟩
      have hlo : first.date ≤ q.date := (List.mem_range'_1.mp hqd).1
      exact hno first (List.mem_cons_self _ _) hlo

/-- Witness for C8 on the spec's example: observations on days 1 and 3 only
render a three-point series whose day-2 value repeats day 1's price. -/
theorem plot_forward_fill_spec_witness :
    ([⟨1, (10 : ℚ)⟩, ⟨3, 8⟩] : List PricePoint) ≠ [] ∧
    (([⟨1, (10 : ℚ)⟩, ⟨3, 8⟩] : List PricePoint).map PricePoint.date).Nodup ∧
    (∃ lo hi, lo ∈ ([⟨1, (10 : ℚ)⟩, ⟨3, 8⟩] : List PricePoint).map PricePoint.date ∧
      hi ∈ ([⟨1, (10 : ℚ)⟩, ⟨3, 8⟩] : List PricePoint).map PricePoint.date ∧
      (∀ d ∈ ([⟨1, (10 : ℚ)⟩, ⟨3, 8⟩] : List PricePoint).map PricePoint.date,
        lo ≤ d ∧ d ≤ hi) ∧
      (plot_price_series [⟨1, (10 : ℚ)⟩, ⟨3, 8⟩]).map PricePoint.date =
        List.range' lo (hi + 1 - lo) ∧
      (∀ q ∈ plot_price_series [⟨1, (10 : ℚ)⟩, ⟨3, 8⟩],
        ∃ pt ∈ ([⟨1, (10 : ℚ)⟩, ⟨3, 8⟩] : List PricePoint), pt.date ≤ q.date ∧
          pt.price = q.price ∧
          ∀ pt' ∈ ([⟨1, (10 : ℚ)⟩, ⟨3, 8⟩] : List PricePoint),
            pt'.date ≤ q.date → pt'.date ≤ pt.date)) :=
  ⟨by decide, by decide,
    plot_forward_fill_spec [⟨1, (10 : ℚ)⟩, ⟨3, 8⟩] (by decide) (by decide)⟩

/-! ## Lemmas for the URL simplifier (claim C10) -/

theorem matchDpAt_nil : matchDpAt [] = none := by decide

theorem matchGpAt_nil : matchGpAt [] = none := by decide

theorem matchDpAt_shape (l a : List Char) (h : matchDpAt l = some a) :
    a.length = 10 ∧ a.all isAsinChar = true := by
  unfold matchDpAt at h
  by_cases hc : l.take 4 = ['/', 'd', 'p', '/'] ∧ ((l.drop 4).take 10).length = 10 ∧
      ((l.drop 4).take 10).all isAsinChar
  · rw [if_pos hc] at h
    injection h with h2
    subst h2
    exact ⟨hc.2.1, hc.2.2⟩
  · rw [if_neg hc] at h
    exact absurd h (by simp)

theorem matchGpAt_shape (l a : List Char) (h : matchGpAt l = some a) :
    a.length = 10 ∧ a.all isAsinChar = true := by
  unfold matchGpAt at h
  by_cases hc : l.take 12 = ['/', 'g', 'p', '/', 'p', 'r', 'o', 'd', 'u', 'c', 't', '/'] ∧
      ((l.drop 12).take 10).length = 10 ∧ ((l.drop 12).take 10).all isAsinChar
  · rw [if_pos hc] at h
    injection h with h2
    subst h2
    exact ⟨hc.2.1, hc.2.2⟩
  · rw [if_neg hc] at h
    exact absurd h (by simp)

theorem searchAsin_shape (l a : List Char) (h : searchAsin l = some a) :
    a.length = 10 ∧ a.all isAsinChar = true := by
  induction l with
  | nil => exact absurd h (by simp [searchAsin])
  | cons c rest ih =>
    unfold searchAsin at h
    rcases hdp : matchDpAt (c :: rest) with _ | b <;> rw [hdp] at h
    · rcases hgp : matchGpAt (c :: rest) with _ | b <;> rw [hgp] at h
      · exact ih h
      · injection h with h2
        subst h2
        exact matchGpAt_shape _ _ hgp
    · injection h with h2
      subst h2
      exact matchDpAt_shape _ _ hdp

theorem searchAsin_occurs (l a : List Char) (h : searchAsin l = some a) :
    ∃ i, matchDpAt (l.drop i) = some a ∨ matchGpAt (l.drop i) = some a := by
  induction l with
  | nil => exact absurd h (by simp [searchAsin])
  | cons c rest ih =>
    unfold searchAsin at h
    rcases hdp : matchDpAt (c :: rest) with _ | b <;> rw [hdp] at h
    · rcases hgp : matchGpAt (c :: rest) with _ | b <;> rw [hgp] at h
      · obtain ⟨i, hi⟩ := ih h
        exact ⟨i + 1, by simpa using hi⟩
      · injection h with h2
        subst h2
        exact ⟨0, Or.inr (by simpa using hgp)⟩
    · injection h with h2
      subst h2
      exact ⟨0, Or.inl (by simpa using hdp)⟩

theorem searchAsin_of_occurs (l : List Char) :
    ∀ (i : Nat) (a : List Char),
      (matchDpAt (l.drop i) = some a ∨ matchGpAt (l.drop i) = some a) →
      ∃ b, searchAsin l = some b := by
  induction l with
  | nil =>
    intro i a h
    rw [List.drop_nil] at h
    rcases h with h | h
    · rw [matchDpAt_nil] at h; exact absurd h (by simp)
    · rw [matchGpAt_nil] at h; exact absurd h (by simp)
  | cons c rest ih =>
    intro i a h
    unfold searchAsin
    rcases hdp : matchDpAt (c :: rest) with _ | b
    · rcases hgp : matchGpAt (c :: rest) with _ | b
      · rcases i with _ | j
        · rw [List.drop_zero] at h
          rcases h with h | h
          · rw [hdp] at h; exact absurd h (by simp)
          · rw [hgp] at h; exact absurd h (by simp)
        · exact ih j a (by simpa using h)
      · exact ⟨b, rfl⟩
    · exact ⟨b, rfl⟩

theorem matchDpAt_none_of_head_ne_slash (c : Char) (t : List Char) (hc : c ≠ '/') :
    matchDpAt (c :: t) = none := by
  unfold matchDpAt
  rw [if_neg]
  rintro ⟨h1, -, -⟩
  have h2 : some c = some '/' := congrArg List.head? h1
  injection h2 with h3
  exact hc h3

theorem matchGpAt_none_of_head_ne_slash (c : Char) (t : List Char) (hc : c ≠ '/') :
    matchGpAt (c :: t) = none := by
  unfold matchGpAt
  rw [if_neg]
  rintro ⟨h1, -, -⟩
  have h2 : some c = some '/' := congrArg List.head? h1
  injection h2 with h3
  exact hc h3

theorem searchAsin_cons_skip (c : Char) (l : List Char) (hc : c ≠ '/') :
    searchAsin (c :: l) = searchAsin l := by
  conv_lhs => rw [searchAsin]
  rw [matchDpAt_none_of_head_ne_slash c _ hc, matchGpAt_none_of_head_ne_slash c _ hc]

theorem searchAsin_skip (P : List Char) (rest : List Char)
    (hP : ∀ c ∈ P, c ≠ '/') :
    searchAsin (P ++ rest) = searchAsin rest := by
  induction P with
  | nil => rfl
  | cons c P' ih =>
    rw [List.cons_append,
      searchAsin_cons_skip c _ (hP c (List.mem_cons_self _ _))]
    exact ih fun x hx => hP x (List.mem_cons_of_mem _ hx)

theorem matchDpAt_dp_head (A : List Char) (hlen : A.length = 10)
    (hall : A.all isAsinChar = true) :
    matchDpAt ('/' :: 'd' :: 'p' :: '/' :: A) = some A := by
  unfold matchDpAt
  have hdrop : ('/' :: 'd' :: 'p' :: '/' :: A).drop 4 = A := rfl
  have htake : A.take 10 = A := by
    rw [← hlen]
    exact List.take_length A
  rw [if_pos]
  · rw [hdrop, htake]
  · rw [hdrop, htake]
    exact ⟨rfl, hlen, hall⟩

theorem matchers_none_at_simplified (P A : List Char)
    (hP : ∀ c ∈ P, c ≠ '/') (hPdp : P ≠ ['d', 'p']) :
    matchDpAt ('/' :: (P ++ '/' :: 'd' :: 'p' :: '/' :: A)) = none ∧
    matchGpAt ('/' :: (P ++ '/' :: 'd' :: 'p' :: '/' :: A)) = none := by
  rcases P with _ | ⟨c0, _ | ⟨c1, _ | ⟨c2, P'⟩⟩⟩
  · constructor
    · unfold matchDpAt
      rw [if_neg]
      rintro ⟨h1, -, -⟩
      have h2 : some '/' = some 'd' := congrArg (fun l => l.tail.head?) h1
      injection h2 with h3
      exact absurd h3 (by decide)
    · unfold matchGpAt
      rw [if_neg]
      rintro ⟨h1, -, -⟩
      have h2 : some '/' = some 'g' := congrArg (fun l => l.tail.head?) h1
      injection h2 with h3
      exact absurd h3 (by decide)
  · constructor
    · unfold matchDpAt
      rw [if_neg]
      rintro ⟨h1, -, -⟩
      have h2 : some '/' = some 'p' := congrArg (fun l => l.tail.tail.head?) h1
      injection h2 with h3
      exact absurd h3 (by decide)
    · unfold matchGpAt
      rw [if_neg]
      rintro ⟨h1, -, -⟩
      have h2 : some '/' = some 'p' := congrArg (fun l => l.tail.tail.head?) h1
      injection h2 with h3
      exact absurd h3 (by decide)
  · constructor
    · unfold matchDpAt
      rw [if_neg]
      rintro ⟨h1, -, -⟩
      have h2 : some c0 = some 'd' := congrArg (fun l => l.tail.head?) h1
      have h3 : some c1 = some 'p' := congrArg (fun l => l.tail.tail.head?) h1
      injection h2 with h4
      injection h3 with h5
      exact hPdp (by rw [h4, h5])
    · unfold matchGpAt
      rw [if_neg]
      rintro ⟨h1, -, -⟩
      have h2 : some 'd' = some 'p' :=
        congrArg (fun l => l.tail.tail.tail.tail.head?) h1
      injection h2 with h3
      exact absurd h3 (by decide)
  · have hc2 : c2 ≠ '/' :=
      hP c2 (List.mem_cons_of_mem _ (List.mem_cons_of_mem _ (List.mem_cons_self _ _)))
    constructor
    · unfold matchDpAt
      rw [if_neg]
      rintro ⟨h1, -, -⟩
      have h2 : some c2 = some '/' := congrArg (fun l => l.tail.tail.tail.head?) h1
      injection h2 with h3
      exact hc2 h3
    · unfold matchGpAt
      rw [if_neg]
      rintro ⟨h1, -, -⟩
      have h2 : some c2 = some '/' := congrArg (fun l => l.tail.tail.tail.head?) h1
      injection h2 with h3
      exact hc2 h3

theorem searchAsin_simplified (P A : List Char)
    (hP : ∀ c ∈ P, c ≠ '/') (hPdp : P ≠ ['d', 'p'])
    (hlen : A.length = 10) (hall : A.all isAsinChar = true) :
    searchAsin ('/' :: (P ++ '/' :: 'd' :: 'p' :: '/' :: A)) = some A := by
  obtain ⟨hdp, hgp⟩ := matchers_none_at_simplified P A hP hPdp
  have h1 : searchAsin ('/' :: (P ++ '/' :: 'd' :: 'p' :: '/' :: A)) =
      searchAsin (P ++ '/' :: 'd' :: 'p' :: '/' :: A) := by
    conv_lhs => rw [searchAsin]
    rw [hdp, hgp]
  have h2 : searchAsin (P ++ '/' :: 'd' :: 'p' :: '/' :: A) =
      searchAsin ('/' :: 'd' :: 'p' :: '/' :: A) :=
    searchAsin_skip P _ hP
  have h3 : searchAsin ('/' :: 'd' :: 'p' :: '/' :: A) = some A := by
    conv_lhs => rw [searchAsin]
    rw [matchDpAt_dp_head A hlen hall]
  rw [h1, h2, h3]

theorem isAsinChar_ne (c : Char) (h : isAsinChar c = true) :
    c ≠ '/' ∧ c ≠ '?' ∧ c ≠ '#' ∧ c ≠ ';' := by
  refine ⟨?_, ?_, ?_, ?_⟩ <;> (intro he; subst he; exact absurd h (by decide))

theorem not_slash_mem_of_all_asin (A : List Char) (hA : A.all isAsinChar = true) :
    '/' ∉ A := by
  intro hmem
  exact absurd (List.all_eq_true.mp hA '/' hmem) (by decide)

theorem urlparsePath_simplified_shape (P A : List Char)
    (hPslash : '/' ∉ P) (hPq : '?' ∉ P) (hPh : '#' ∉ P)
    (hA : A.all isAsinChar = true) :
    urlparsePath ("https://www.amazon.com/".data ++ P ++ "/dp/".data ++ A) =
      '/' :: (P ++ '/' :: 'd' :: 'p' :: '/' :: A) := by
  have e0 : ("/dp/".data : List Char) ++ A = '/' :: 'd' :: 'p' :: '/' :: A := rfl
  rw [show ("https://www.amazon.com/".data ++ P ++ "/dp/".data ++ A : List Char) =
    "https://www.amazon.com/".data ++ P ++ ('/' :: 'd' :: 'p' :: '/' :: A) by
      rw [← e0, List.append_assoc]]
  have h1 : afterScheme
      ("https://www.amazon.com/".data ++ P ++ ('/' :: 'd' :: 'p' :: '/' :: A)) =
      "//www.amazon.com/".data ++ P ++ ('/' :: 'd' :: 'p' :: '/' :: A) := rfl
  have h2 : afterNetloc
      ("//www.amazon.com/".data ++ P ++ ('/' :: 'd' :: 'p' :: '/' :: A)) =
      '/' :: (P ++ '/' :: 'd' :: 'p' :: '/' :: A) := rfl
  have h3 : takeUntilQueryFrag ('/' :: (P ++ '/' :: 'd' :: 'p' :: '/' :: A)) =
      '/' :: (P ++ '/' :: 'd' :: 'p' :: '/' :: A) := by
    apply takeWhile_eq_self_of_all
    intro c hc
    rcases List.mem_cons.mp hc with hc1 | hc1
    · subst hc1; decide
    rcases List.mem_append.mp hc1 with hc2 | hc2
    · have hq : c ≠ '?' := fun he => hPq (he ▸ hc2)
      have hh : c ≠ '#' := fun he => hPh (he ▸ hc2)
      simp [hq, hh]
    rcases List.mem_cons.mp hc2 with hc3 | hc3
    · subst hc3; decide
    rcases List.mem_cons.mp hc3 with hc4 | hc4
    · subst hc4; decide
    rcases List.mem_cons.mp hc4 with hc5 | hc5
    · subst hc5; decide
    rcases List.mem_cons.mp hc5 with hc6 | hc6
    · subst hc6; decide
    · obtain ⟨-, hq, hh, -⟩ := isAsinChar_ne c (List.all_eq_true.mp hA c hc6)
      simp [hq, hh]
  have hsegs : splitOnChar '/' ('/' :: (P ++ '/' :: 'd' :: 'p' :: '/' :: A)) =
      [[], P, ['d', 'p'], A] := by
    have e2 : splitOnChar '/' (([] : List Char) ++ '/' ::
        (P ++ '/' :: (['d', 'p'] ++ '/' :: A))) =
        [] :: splitOnChar '/' (P ++ '/' :: (['d', 'p'] ++ '/' :: A)) :=
      splitOnChar_append_sep '/' [] _ (by simp)
    have e3 : splitOnChar '/' (P ++ '/' :: (['d', 'p'] ++ '/' :: A)) =
        P :: splitOnChar '/' (['d', 'p'] ++ '/' :: A) :=
      splitOnChar_append_sep '/' P _ hPslash
    have e4 : splitOnChar '/' ((['d', 'p'] : List Char) ++ '/' :: A) =
        ['d', 'p'] :: splitOnChar '/' A :=
      splitOnChar_append_sep '/' ['d', 'p'] _ (by decide)
    have e5 : splitOnChar '/' A = [A] :=
      splitOnChar_sep_free '/' A (not_slash_mem_of_all_asin A hA)
    have e1 : '/' :: (P ++ '/' :: 'd' :: 'p' :: '/' :: A) =
        ([] : List Char) ++ '/' :: (P ++ '/' :: (['d', 'p'] ++ '/' :: A)) := rfl
    rw [e1, e2, e3, e4, e5]
  have h4 : stripParams ('/' :: (P ++ '/' :: 'd' :: 'p' :: '/' :: A)) =
      '/' :: (P ++ '/' :: 'd' :: 'p' :: '/' :: A) := by
    unfold stripParams
    rw [if_pos (by simp)]
    rw [hsegs]
    have htw : A.takeWhile (· ≠ ';') = A := by
      apply takeWhile_eq_self_of_all
      intro c hc
      obtain ⟨-, -, -, hs⟩ := isAsinChar_ne c (List.all_eq_true.mp hA c hc)
      simp [hs]
    show List.intercalate ['/'] ([[], P, ['d', 'p']] ++ [A.takeWhile (· ≠ ';')]) = _
    rw [htw]
    show List.intercalate ['/'] [[], P, ['d', 'p'], A] = _
    simp [List.intercalate, List.intersperse]
  unfold urlparsePath
  rw [h1, h2, h3, h4]

theorem mem_replaceChar (a b c : Char) (l : List Char) (h : c ∈ replaceChar a b l) :
    c = b ∨ c ∈ l := by
  unfold replaceChar at h
  obtain ⟨x, hx, hxc⟩ := List.mem_map.mp h
  by_cases hxa : x = a
  · rw [if_pos hxa] at hxc
    exact Or.inl hxc.symm
  · rw [if_neg hxa] at hxc
    exact Or.inr (hxc ▸ hx)

theorem not_mem_replaceChar_src (a b : Char) (l : List Char) (hab : a ≠ b) :
    a ∉ replaceChar a b l := by
  intro h
  unfold replaceChar at h
  obtain ⟨x, hx, hxc⟩ := List.mem_map.mp h
  by_cases hxa : x = a
  · rw [if_pos hxa] at hxc
    exact hab hxc.symm
  · rw [if_neg hxa] at hxc
    exact hxa (hxc ▸ rfl)

theorem replaceChar_roundtrip (P : List Char) (hP : ' ' ∉ P) :
    replaceChar ' ' '-' (replaceChar '-' ' ' P) = P := by
  induction P with
  | nil => rfl
  | cons c rest ih =>
    have hc : c ≠ ' ' := fun he => hP (he ▸ List.mem_cons_self _ _)
    have hrest : ' ' ∉ rest := fun hm => hP (List.mem_cons_of_mem _ hm)
    unfold replaceChar at ih ⊢
    rw [List.map_cons, List.map_cons]
    by_cases hcd : c = '-'
    · rw [if_pos hcd]
      rw [show (if (' ' : Char) = ' ' then '-' else ' ') = '-' from rfl]
      rw [ih hrest, hcd]
    · rw [if_neg hcd, if_neg hc, ih hrest]

theorem mem_intercalate_single (s : Char) (ls : List (List Char)) :
    ∀ c ∈ List.intercalate [s] ls, c = s ∨ ∃ l ∈ ls, c ∈ l := by
  induction ls with
  | nil =>
    intro c hc
    simp [List.intercalate, List.intersperse] at hc
  | cons x t ih =>
    intro c hc
    rcases t with _ | ⟨y, t'⟩
    · have he : List.intercalate [s] [x] = x := by
        simp [List.intercalate, List.intersperse]
      rw [he] at hc
      exact Or.inr ⟨x, List.mem_cons_self _ _, hc⟩
    · have he : List.intercalate [s] (x :: y :: t') =
          x ++ s :: List.intercalate [s] (y :: t') := by
        simp [List.intercalate, List.intersperse]
      rw [he] at hc
      rcases List.mem_append.mp hc with h1 | h1
      · exact Or.inr ⟨x, List.mem_cons_self _ _, h1⟩
      · rcases List.mem_cons.mp h1 with h2 | h2
        · exact Or.inl h2
        · rcases ih c h2 with h3 | ⟨l, hl, hcl⟩
          · exact Or.inl h3
          · exact Or.inr ⟨l, List.mem_cons_of_mem _ hl, hcl⟩

theorem mem_stripParams (p : List Char) :
    ∀ c ∈ stripParams p, c = '/' ∨ c ∈ p := by
  intro c hc
  unfold stripParams at hc
  by_cases hsl : p.contains '/'
  · rw [if_pos hsl] at hc
    rcases mem_intercalate_single '/' _ c hc with h1 | ⟨l, hl, hcl⟩
    · exact Or.inl h1
    · rcases List.mem_append.mp hl with h2 | h2
      · have hlsegs : l ∈ splitOnChar '/' p := List.dropLast_subset _ h2
        exact Or.inr (mem_of_mem_splitOnChar '/' p l hlsegs c hcl)
      · rcases List.mem_cons.mp h2 with h3 | h3
        · subst h3
          have hcl2 := List.takeWhile_subset _ hcl
          rcases hgl : (splitOnChar '/' p).getLast? with _ | lseg
          · rw [hgl] at hcl2
            simp at hcl2
          · rw [hgl] at hcl2
            have hmem : lseg ∈ splitOnChar '/' p := by
              obtain ⟨hne, heq⟩ := List.mem_getLast?_eq_getLast (by rw [hgl]; rfl)
              rw [heq]
              exact List.getLast_mem hne
            exact Or.inr (mem_of_mem_splitOnChar '/' p lseg hmem c hcl2)
        · simp at h3
  · rw [if_neg hsl] at hc
    exact Or.inr (List.takeWhile_subset _ hc)

theorem urlparsePath_clean (l : List Char) :
    ∀ c ∈ urlparsePath l, c ≠ '?' ∧ c ≠ '#' := by
  intro c hc
  unfold urlparsePath at hc
  rcases mem_stripParams _ c hc with h1 | h1
  · subst h1
    exact ⟨by decide, by decide⟩
  · have h2 := List.mem_takeWhile_imp h1
    constructor
    · intro he
      subst he
      simp at h2
    · intro he
      subst he
      simp at h2

theorem replaceChar_seg_clean (url : List Char) (seg : List Char)
    (hseg : seg = [] ∨ seg ∈ splitOnChar '/' (urlparsePath url)) :
    ∀ c ∈ replaceChar '-' ' ' seg, c ≠ '/' ∧ c ≠ '?' ∧ c ≠ '#' := by
  intro c hc
  rcases mem_replaceChar _ _ _ _ hc with h1 | h1
  · subst h1
    exact ⟨by decide, by decide, by decide⟩
  rcases hseg with h2 | h2
  · subst h2
    simp at h1
  have hslash := mem_splitOnChar_sep_free '/' _ seg h2
  have hpath := mem_of_mem_splitOnChar '/' _ seg h2 c h1
  have hqf := urlparsePath_clean url c hpath
  exact ⟨fun he => hslash (he ▸ h1), hqf.1, hqf.2⟩

theorem extract_product_name_clean (url : List Char) :
    ∀ c ∈ extract_product_name url, c ≠ '/' ∧ c ≠ '?' ∧ c ≠ '#' := by
  intro c hc
  unfold extract_product_name at hc
  dsimp only at hc
  rcases hidx : (splitOnChar '/' (urlparsePath url)).findIdx? (· = ['d', 'p'])
    with _ | i <;> rw [hidx] at hc <;> dsimp only at hc
  · have hall : ∀ x ∈ "Amazon Product".data, x ≠ '/' ∧ x ≠ '?' ∧ x ≠ '#' := by decide
    exact hall c hc
  · by_cases hi : i = 0
    · rw [if_pos hi] at hc
      refine replaceChar_seg_clean url _ ?_ c hc
      rcases hgl : (splitOnChar '/' (urlparsePath url)).getLast? with _ | lseg
      · exact Or.inl rfl
      · refine Or.inr ?_
        obtain ⟨hne, heq⟩ := List.mem_getLast?_eq_getLast (by rw [hgl]; rfl)
        rw [show (some lseg).getD [] = lseg from rfl, heq]
        exact List.getLast_mem hne
    · rw [if_neg hi] at hc
      refine replaceChar_seg_clean url _ ?_ c hc
      rcases hge : (splitOnChar '/' (urlparsePath url))[i - 1]? with _ | seg
      · exact Or.inl rfl
      · exact Or.inr (List.getElem?_mem hge)

theorem splitOnChar_simplified (P A : List Char) (hPslash : '/' ∉ P)
    (hA : A.all isAsinChar = true) :
    splitOnChar '/' ('/' :: (P ++ '/' :: 'd' :: 'p' :: '/' :: A)) =
      [[], P, ['d', 'p'], A] := by
  have e2 : splitOnChar '/' (([] : List Char) ++ '/' ::
      (P ++ '/' :: (['d', 'p'] ++ '/' :: A))) =
      [] :: splitOnChar '/' (P ++ '/' :: (['d', 'p'] ++ '/' :: A)) :=
    splitOnChar_append_sep '/' [] _ (by simp)
  have e3 : splitOnChar '/' (P ++ '/' :: (['d', 'p'] ++ '/' :: A)) =
      P :: splitOnChar '/' (['d', 'p'] ++ '/' :: A) :=
    splitOnChar_append_sep '/' P _ hPslash
  have e4 : splitOnChar '/' ((['d', 'p'] : List Char) ++ '/' :: A) =
      ['d', 'p'] :: splitOnChar '/' A :=
    splitOnChar_append_sep '/' ['d', 'p'] _ (by decide)
  have e5 : splitOnChar '/' A = [A] :=
    splitOnChar_sep_free '/' A (not_slash_mem_of_all_asin A hA)
  have e1 : '/' :: (P ++ '/' :: 'd' :: 'p' :: '/' :: A) =
      ([] : List Char) ++ '/' :: (P ++ '/' :: (['d', 'p'] ++ '/' :: A)) := rfl
  rw [e1, e2, e3, e4, e5]

theorem extract_product_name_simplified (P A : List Char)
    (hPslash : '/' ∉ P) (hPq : '?' ∉ P) (hPh : '#' ∉ P) (hPdp : P ≠ ['d', 'p'])
    (hA : A.all isAsinChar = true) :
    extract_product_name
        ("https://www.amazon.com/".data ++ P ++ "/dp/".data ++ A) =
      replaceChar '-' ' ' P := by
  unfold extract_product_name
  dsimp only
  rw [urlparsePath_simplified_shape P A hPslash hPq hPh hA,
    splitOnChar_simplified P A hPslash hA]
  have hfind : ([[], P, ['d', 'p'], A].findIdx? (· = ['d', 'p'])) = some 2 := by
    have h1 : (decide (P = ['d', 'p'])) = false := decide_eq_false hPdp
    simp [List.findIdx?, h1]
  rw [hfind]
  dsimp only
  rw [if_neg (by decide : ¬(2 = 0))]
  rfl

/-- C10 (amended): when the parsed path holds no `/dp/<ASIN>` or
`/gp/product/<ASIN>` segment (10 uppercase-alphanumeric characters), the
simplifier returns the `Invalid Amazon product URL:` string instead of
raising — and conversely any such segment makes the search succeed.  When the
search succeeds, the returned ASIN is 10 uppercase-alphanumeric characters
occurring in the path at some position, and the result is
`https://www.amazon.com/<product-name>/dp/<ASIN>` built from the extracted
product name.  Re-simplifying that output returns it unchanged PROVIDED the
rebuilt product-name segment is not the literal `dp` — idempotence fails in
that corner (see the counterexample), because the name extractor then picks
`path_parts[-1]` via Python's negative indexing. -/
theorem simplify_url_amended (url : String) :
    (searchAsin (urlparsePath url.data) = none →
      get_simplified_amazon_url url = "Invalid Amazon product URL: " ++ url) ∧
    (∀ asin, searchAsin (urlparsePath url.data) = some asin →
      asin.length = 10 ∧ asin.all isAsinChar = true ∧
      (∃ i, matchDpAt ((urlparsePath url.data).drop i) = some asin ∨
        matchGpAt ((urlparsePath url.data).drop i) = some asin) ∧
      get_simplified_amazon_url url = String.mk ("https://www.amazon.com/".data ++
        replaceChar ' ' '-' (extract_product_name url.data) ++ "/dp/".data ++ asin) ∧
      (replaceChar ' ' '-' (extract_product_name url.data) ≠ ['d', 'p'] →
        get_simplified_amazon_url (get_simplified_amazon_url url) =
          get_simplified_amazon_url url)) ∧
    (∀ (i : Nat) (a : List Char),
      (matchDpAt ((urlparsePath url.data).drop i) = some a ∨
        matchGpAt ((urlparsePath url.data).drop i) = some a) →
      ∃ asin, searchAsin (urlparsePath url.data) = some asin) := by
  refine ⟨?_, ?_, fun i a h => searchAsin_of_occurs _ i a h⟩
  · intro h
    unfold get_simplified_amazon_url get_simplified_amazon_url_chars
    rw [h]
    rfl
  · intro asin h
    obtain ⟨hlen, hall⟩ := searchAsin_shape _ _ h
    have hsimp : get_simplified_amazon_url url =
        String.mk ("https://www.amazon.com/".data ++
          replaceChar ' ' '-' (extract_product_name url.data) ++
          "/dp/".data ++ asin) := by
      unfold get_simplified_amazon_url get_simplified_amazon_url_chars
      rw [h]
    refine ⟨hlen, hall, searchAsin_occurs _ _ h, hsimp, ?_⟩
    intro hPdp
    have hclean := extract_product_name_clean url.data
    have hPslash : '/' ∉ replaceChar ' ' '-' (extract_product_name url.data) := by
      intro hm
      rcases mem_replaceChar ' ' '-' '/' _ hm with h1 | h1
      · exact absurd h1 (by decide)
      · exact (hclean '/' h1).1 rfl
    have hPq : '?' ∉ replaceChar ' ' '-' (extract_product_name url.data) := by
      intro hm
      rcases mem_replaceChar ' ' '-' '?' _ hm with h1 | h1
      · exact absurd h1 (by decide)
      · exact (hclean '?' h1).2.1 rfl
    have hPh : '#' ∉ replaceChar ' ' '-' (extract_product_name url.data) := by
      intro hm
      rcases mem_replaceChar ' ' '-' '#' _ hm with h1 | h1
      · exact absurd h1 (by decide)
      · exact (hclean '#' h1).2.2 rfl
    have hPspace : ' ' ∉ replaceChar ' ' '-' (extract_product_name url.data) :=
      not_mem_replaceChar_src ' ' '-' _ (by decide)
    have hpath := urlparsePath_simplified_shape
      (replaceChar ' ' '-' (extract_product_name url.data)) asin hPslash hPq hPh hall
    have hsearch : searchAsin (urlparsePath ("https://www.amazon.com/".data ++
        replaceChar ' ' '-' (extract_product_name url.data) ++
        "/dp/".data ++ asin)) = some asin := by
      rw [hpath]
      exact searchAsin_simplified _ asin (fun c hc he => hPslash (he ▸ hc))
        hPdp hlen hall
    have hextract := extract_product_name_simplified
      (replaceChar ' ' '-' (extract_product_name url.data)) asin
      hPslash hPq hPh hPdp hall
    rw [hsimp]
    unfold get_simplified_amazon_url get_simplified_amazon_url_chars
    rw [show (String.mk ("https://www.amazon.com/".data ++
        replaceChar ' ' '-' (extract_product_name url.data) ++
        "/dp/".data ++ asin)).data =
      "https://www.amazon.com/".data ++
        replaceChar ' ' '-' (extract_product_name url.data) ++
        "/dp/".data ++ asin from rfl]
    rw [hsearch]
    rw [hextract, replaceChar_roundtrip _ hPspace]

/-- C10 counterexample: the URL `dp/x/dp/B000000001/dp` has a path containing
`/dp/B000000001`, so it is in the claim's domain; simplifying yields
`https://www.amazon.com/dp/dp/B000000001` (the extractor hits `dp` at index 0
and Python's `path_parts[-1]` picks the LAST segment, `dp`), but simplifying
again yields `https://www.amazon.com//dp/B000000001` — not the same URL, so
the claimed idempotence fails. -/
theorem simplify_idempotence_counterexample :
    (∃ i, matchDpAt ((urlparsePath ("dp/x/dp/B000000001/dp").data).drop i) =
        some ("B000000001".data) ∨
      matchGpAt ((urlparsePath ("dp/x/dp/B000000001/dp").data).drop i) =
        some ("B000000001".data)) ∧
    get_simplified_amazon_url "dp/x/dp/B000000001/dp" =
      "https://www.amazon.com/dp/dp/B000000001" ∧
    get_simplified_amazon_url (get_simplified_amazon_url "dp/x/dp/B000000001/dp") =
      "https://www.amazon.com//dp/B000000001" ∧
    get_simplified_amazon_url (get_simplified_amazon_url "dp/x/dp/B000000001/dp") ≠
      get_simplified_amazon_url "dp/x/dp/B000000001/dp" :=
  ⟨⟨4, Or.inl (by decide)⟩, by decide, by decide, by decide⟩

/-- Witness for the amended C10 theorem: a typical product URL with tracking
clutter simplifies to the canonical form, and simplifying that output again
leaves it unchanged. -/
theorem simplify_url_amended_witness :
    get_simplified_amazon_url (get_simplified_amazon_url
      "https://www.amazon.com/Apple-AirPods-Pro/dp/B0BDHWDR12?th=1&ref=sr_1_2") =
    get_simplified_amazon_url
      "https://www.amazon.com/Apple-AirPods-Pro/dp/B0BDHWDR12?th=1&ref=sr_1_2" :=
  ((simplify_url_amended
    "https://www.amazon.com/Apple-AirPods-Pro/dp/B0BDHWDR12?th=1&ref=sr_1_2").2.1
    ("B0BDHWDR12".data) (by decide)).2.2.2.2 (by decide)
